import Mathlib

/-!
Verification development for a small TOML-style parser (`src/toml/toml.rs`).

The Rust source is shallowly embedded here:

* strings are `List Char` (the Rust parser reads `char`s one at a time);
* `HashMap<~str, Value>` is an association list `List (List Char × Value)`
  with first-match lookup and replace-or-append insertion (the builder only
  ever inserts at absent keys, so iteration order never matters);
* `u64` arithmetic keeps the source's unchecked accumulation, modelled with
  an explicit `% 2^64`;
* `f64` is modelled by `ℚ` computed exactly; no claim depends on a float
  payload, only on success/failure of float parses;
* fallible Rust functions returning `bool` plus in-place mutation become
  `Option`-returning pure functions (on failure the whole parse aborts and
  the partially mutated state is discarded by `parse_from_buffer`, so the
  `Option` model is observationally faithful);
* loops whose termination is not structural carry an explicit fuel
  parameter and return `none` when the fuel runs out, so `some r` always
  means the source loop really produced `r`.
-/

namespace Toml

/-- Rust `char::to_digit(radix)`: digits `0-9`, letters `a-z`/`A-Z`, value
must be below the radix. -/
def charToDigit (radix : Nat) (c : Char) : Option Nat :=
  let v :=
    if '0' ≤ c ∧ c ≤ '9' then c.toNat - '0'.toNat
    else if 'a' ≤ c ∧ c ≤ 'z' then c.toNat - 'a'.toNat + 10
    else if 'A' ≤ c ∧ c ≤ 'Z' then c.toNat - 'A'.toNat + 10
    else radix
  if v < radix then some v else none

/-- The source's `'0' .. '9'` character-range pattern. -/
def isDigitCh (c : Char) : Bool := decide ('0' ≤ c ∧ c ≤ '9')

/-- `enum Value` from the source.  `Table` holds an association list standing
for the `HashMap`. -/
inductive Value where
  | NoValue : Value
  | Boolean : Bool → Value
  | Unsigned : Nat → Value
  | Signed : Nat → Value
  | Float : ℚ → Value
  | String : List Char → Value
  | Datetime : Nat → Nat → Nat → Nat → Nat → Nat → Value
  | Array : List Value → Value
  | TableArray : List Value → Value
  | Table : List (List Char × Value) → Value

/-- The association-list stand-in for `HashMap<~str, Value>`. -/
abbrev TMap := List (List Char × Value)

/-- `HashMap::find` / `find_mut`: first binding of the key. -/
def mfind : TMap → List Char → Option Value
  | [], _ => none
  | (k, v) :: rest, key => if k = key then some v else mfind rest key

/-- `HashMap::insert` (always stores; replaces an existing binding). -/
def minsert : TMap → List Char → Value → TMap
  | [], key, val => [(key, val)]
  | (k, v) :: rest, key, val =>
    if k = key then (k, val) :: rest else (k, v) :: minsert rest key val

/-- `fn have_equiv_types` from the source, line for line. -/
def have_equiv_types : Value → Value → Bool
  | .Boolean _, .Boolean _ => true
  | .Unsigned _, .Unsigned _ => true
  | .Unsigned _, .Signed _ => true
  | .Signed _, .Unsigned _ => true
  | .Signed _, .Signed _ => true
  | .Float _, .Float _ => true
  | .String _, .String _ => true
  | .Datetime _ _ _ _ _ _, .Datetime _ _ _ _ _ _ => true
  | .Array _, .Array _ => true
  | _, _ => false

/-- `enum PathElement` from the source. -/
inductive PathElement where
  | Key : List Char → PathElement
  | Idx : Nat → PathElement
  deriving DecidableEq

/-- `Value::lookup_key`: key access, valid only on a `Table`. -/
def Value.lookup_key : Value → List Char → Option Value
  | .Table m, key => mfind m key
  | _, _ => none

/-- `Value::lookup_vec`: index access, valid only on an `Array`.
(Present in the source; note that `lookup_path_elts` does NOT use it.) -/
def Value.lookup_vec : Value → Nat → Option Value
  | .Array a, idx => a.get? idx
  | _, _ => none

/-- `Value::lookup_idx`: index access, valid only on a `TableArray`. -/
def Value.lookup_idx : Value → Nat → Option Value
  | .TableArray a, idx => a.get? idx
  | _, _ => none

/-- `Value::lookup_path_elts`. -/
def Value.lookup_path_elts : Value → List PathElement → Option Value
  | v, [] => some v
  | v, .Key key :: rest => (v.lookup_key key).bind (fun a => a.lookup_path_elts rest)
  | v, .Idx idx :: rest => (v.lookup_idx idx).bind (fun a => a.lookup_path_elts rest)

/-- The digit part of Rust `FromStr::from_str::<uint>` (the `strconv`
accumulation loop): at least one decimal digit and nothing else; an
accumulation that overflows 64-bit `uint` yields `None`. -/
def from_str_uint_digits (digits : List Char) : Option Nat :=
  if digits ≠ [] ∧ digits.all isDigitCh then
    if digits.foldl (fun acc c => acc * 10 + (c.toNat - '0'.toNat)) 0 < 2 ^ 64 then
      some (digits.foldl (fun acc c => acc * 10 + (c.toNat - '0'.toNat)) 0)
    else none
  else none

/-- Rust `FromStr::from_str::<uint>` (`strconv::from_str_bytes_common`):
an optional leading `+` is accepted; a leading `-` is rejected for the
unsigned target (it falls into the all-digits check and fails there, as
does any other stray character); overflow yields `None`. -/
def from_str_uint (s : List Char) : Option Nat :=
  match s with
  | '+' :: rest => from_str_uint_digits rest
  | _ => from_str_uint_digits s

/-- `str::split_str(".")`: always at least one piece; empty pieces kept. -/
def splitDot : List Char → List (List Char)
  | [] => [[]]
  | c :: rest =>
    if c = '.' then [] :: splitDot rest
    else
      match splitDot rest with
      | s :: ss => (c :: s) :: ss
      | [] => [[c]]

/-- Segment classification inside `Value::lookup`: numeric segments become
indices, all others keys. -/
def toPathElement (s : List Char) : PathElement :=
  match from_str_uint s with
  | some i => .Idx i
  | none => .Key s

/-- `Value::lookup`: split the query on `.`, classify each segment, walk. -/
def Value.lookup (v : Value) (path : List Char) : Option Value :=
  v.lookup_path_elts ((splitDot path).map toPathElement)

/-- `ValueBuilder::recursive_create_tree`.  `some ht'` models `true` plus the
mutated map; `none` models `false` (on every `false` path of the source the
map is unchanged, and the enclosing parse aborts, so no information is
lost).  The source's `assert!`s (nonempty path, nonempty `TableArray`,
`TableArray`s containing only `Table`s) become `none` branches. -/
def recursive_create_tree : List (List Char) → TMap → Bool → Option TMap
  | [], _, _ => none
  | p :: ps, ht, is_array =>
    if p = [] then none  -- do not allow empty keys
    else
      match mfind ht p, ps with
      | some (.TableArray ta), [] =>
        -- terminal recursion on an existing TableArray
        if is_array then some (minsert ht p (.TableArray (ta ++ [.Table []])))
        else none  -- duplicate key
      | some (.TableArray ta), _ :: _ =>
        -- descend into the last Table of the TableArray
        match ta.getLast? with
        | some (.Table hmap) =>
          (recursive_create_tree ps hmap is_array).map
            (fun h => minsert ht p (.TableArray (ta.set (ta.length - 1) (.Table h))))
        | _ => none
      | some (.Table _t), [] =>
        -- terminal recursion on an existing Table: re-opening is permitted
        if is_array then none else some ht
      | some (.Table t), _ :: _ =>
        (recursive_create_tree ps t is_array).map (fun h => minsert ht p (.Table h))
      | some _, _ => none  -- wrong type / duplicate key
      | none, [] =>
        some (minsert ht p (if is_array then .TableArray [.Table []] else .Table []))
      | none, _ :: _ =>
        (recursive_create_tree ps [] is_array).map (fun sub => minsert ht p (.Table sub))

/-- `ValueBuilder::insert_value`.  As above, `none` models `false`.  (On the
duplicate-key path the source's `HashMap::insert` also overwrites the old
binding while returning `false`; the parse then aborts and the map is
discarded, so the overwrite is unobservable.) -/
def insert_value : List (List Char) → List Char → TMap → Value → Option TMap
  | [], key, ht, val =>
    match mfind ht key with
    | some _ => none  -- duplicate key (source: insert returns false)
    | none => some (ht ++ [(key, val)])
  | p :: ps, key, ht, val =>
    match mfind ht p with
    | some (.Table t) =>
      (insert_value ps key t val).map (fun t' => minsert ht p (.Table t'))
    | some (.TableArray ta) =>
      match ta.getLast? with
      | some (.Table hmap) =>
        (insert_value ps key hmap val).map
          (fun h => minsert ht p (.TableArray (ta.set (ta.length - 1) (.Table h))))
      | _ => none
    | _ => none  -- wrong type / duplicate key

/-- Specification helper (not from the source): the address walked when the
builder descends `path` from `ht` — `Table`s contribute their key,
`TableArray`s additionally the index of their last element — together with
the `Table` the walk ends in.  This is exactly the walk `insert_value`
performs above its final insertion. -/
def resolve : TMap → List (List Char) → Option (List PathElement × TMap)
  | ht, [] => some ([], ht)
  | ht, p :: ps =>
    match mfind ht p with
    | some (.Table t) =>
      (resolve t ps).map (fun r => (.Key p :: r.1, r.2))
    | some (.TableArray ta) =>
      match ta.getLast? with
      | some (.Table hmap) =>
        (resolve hmap ps).map (fun r => (.Key p :: .Idx (ta.length - 1) :: r.1, r.2))
      | _ => none
    | _ => none

/-- Ghost record of one successful `pair` event: the open section path, the
address the builder walked for it, the key and the value.  Used only to
state reachability claims; it does not influence parsing. -/
structure TraceEntry where
  path : List (List Char)
  addr : List PathElement
  key : List Char
  val : Value

/-- `struct ValueBuilder` plus the ghost `trace` field. -/
structure ValueBuilder where
  root : TMap
  current_path : List (List Char)
  trace : List TraceEntry

/-- `ValueBuilder::new`. -/
def ValueBuilder.new : ValueBuilder := ⟨[], [], []⟩

/-- `Visitor::section` for `ValueBuilder` (named `open_section` because
`section` is reserved in Lean; the spec also calls it `open_section`).
The source sets `current_path` before calling `recursive_create_tree`; on
failure the parse aborts and the builder is discarded, so returning the
un-updated builder inside `none` is unobservable. -/
def ValueBuilder.open_section (b : ValueBuilder) (name : List Char) (is_array : Bool) :
    Option ValueBuilder :=
  let path := splitDot name
  (recursive_create_tree path b.root is_array).map
    (fun r => { b with root := r, current_path := path })

/-- `Visitor::pair` for `ValueBuilder`, extended with the ghost trace: on
success the walked address (which `insert_value`'s success guarantees to
exist) is recorded together with the key and value. -/
def ValueBuilder.pair (b : ValueBuilder) (key : List Char) (val : Value) :
    Option ValueBuilder :=
  (insert_value b.current_path key b.root val).map
    (fun r =>
      { b with
          root := r
          trace := b.trace ++
            [⟨b.current_path, ((resolve b.root b.current_path).map Prod.fst).getD [],
              key, val⟩] })

/-! ## Scanner (`struct Parser`) -/

/-- Scanner state: the not-yet-consumed characters (whose head is
`current_char`) and the 1-based line counter. -/
structure PState where
  input : List Char
  line : Nat
  deriving DecidableEq

/-- `Parser::new`: note the source quirk that a leading newline already
bumps the line counter at construction time. -/
def pnew (s : List Char) : PState :=
  ⟨s, if s.head? = some '\n' then 2 else 1⟩

/-- `Parser::advance_if`. -/
def advance_if (c : Char) (st : PState) : Bool × PState :=
  match st.input with
  | c' :: rest => if c' = c then (true, ⟨rest, st.line⟩) else (false, st)
  | [] => (false, st)

/-- `Parser::read_digit`. -/
def read_digit (radix : Nat) (st : PState) : Option Nat × PState :=
  match st.input with
  | [] => (none, st)
  | c :: rest =>
    match charToDigit radix c with
    | some n => (some n, ⟨rest, st.line⟩)
    | none => (none, st)

/-- `Parser::read_two_digits`. -/
def read_two_digits (st : PState) : Option Nat × PState :=
  let (d1, st1) := read_digit 10 st
  let (d2, st2) := read_digit 10 st1
  match d1, d2 with
  | some d1, some d2 => (some (d1 * 10 + d2), st2)
  | _, _ => (none, st2)

/-- Loop of `Parser::read_digits`; accumulation wraps at `2^64` as the
source's unchecked `u64` arithmetic does. -/
def read_digits_loop : List Char → Nat → Nat → (Nat × Nat × List Char)
  | [], num, nd => (num, nd, [])
  | c :: rest, num, nd =>
    match charToDigit 10 c with
    | some n => read_digits_loop rest ((num * 10 + n) % 2 ^ 64) (nd + 1)
    | none => (num, nd, c :: rest)

/-- `Parser::read_digits`: value (if any digit at all), digit count, rest. -/
def read_digits (st : PState) : Option Nat × Nat × PState :=
  match read_digit 10 st with
  | (none, _) => (none, 0, st)
  | (some n, st1) =>
    let r := read_digits_loop st1.input n 1
    (some r.1, r.2.1, ⟨r.2.2, st1.line⟩)

/-- `Parser::read_float_mantissa` (exact rational instead of `f64`). -/
def read_float_mantissa_loop : List Char → ℚ → ℚ → (ℚ × List Char)
  | [], num, _ => (num, [])
  | c :: rest, num, div =>
    match charToDigit 10 c with
    | some n => read_float_mantissa_loop rest (num + (n : ℚ) / div) (div * 10)
    | none => (num, c :: rest)

/-- `Parser::read_float_mantissa`. -/
def read_float_mantissa (st : PState) : ℚ × PState :=
  let r := read_float_mantissa_loop st.input 0 10
  (r.1, ⟨r.2, st.line⟩)

/-- `Parser::parse_float_rest`: requires at least one digit after the dot. -/
def parse_float_rest (n : Nat) (mul : ℚ) (st : PState) : Value × PState :=
  match st.input with
  | [] => (.NoValue, st)
  | c :: _ =>
    if isDigitCh c then
      let (num, st') := read_float_mantissa st
      (.Float (((n : ℚ) + num) * mul), st')
    else (.NoValue, st)

/-- Loop of `Parser::read_token` over the raw character list. -/
def read_token_aux (f : Char → Bool) : List Char → (List Char × List Char)
  | [] => ([], [])
  | c :: rest =>
    if f c then
      let r := read_token_aux f rest
      (c :: r.1, r.2)
    else ([], c :: rest)

/-- `Parser::read_token`: accumulate while the predicate holds; the
terminating character is never consumed.  (`advance` inside the source's
loop never touches the line counter.) -/
def read_token (f : Char → Bool) (st : PState) : (List Char × PState) :=
  let r := read_token_aux f st.input
  (r.1, ⟨r.2, st.line⟩)

/-- `Parser::parse_section_identifier`. -/
def parse_section_identifier (st : PState) : List Char × PState :=
  read_token (fun ch => !(ch = '\t' ∨ ch = '\n' ∨ ch = '\r' ∨ ch = '[' ∨ ch = ']')) st

/-- Loop of `Parser::skip_whitespaces` over the raw character list. -/
def skip_whitespaces_aux : List Char → Nat → PState
  | [], line => ⟨[], line⟩
  | c :: rest, line =>
    if c = ' ' ∨ c = '\t' ∨ c = '\r' then skip_whitespaces_aux rest line
    else if c = '\n' then skip_whitespaces_aux rest (line + 1)
    else ⟨c :: rest, line⟩

/-- `Parser::skip_whitespaces`. -/
def skip_whitespaces (st : PState) : PState :=
  skip_whitespaces_aux st.input st.line

/-- `Parser::skip_whitespaces_and_comments`, with `skip_comment` fused into
the same single pass (the `Bool` argument is "currently inside a comment").
Faithful to the source: inside a comment every character up to the newline
is consumed, the newline bumps the line counter, and end of input inside a
comment just stops. -/
def skip_wsc_aux : Bool → List Char → Nat → PState
  | _, [], line => ⟨[], line⟩
  | true, c :: rest, line =>
    if c = '\n' then skip_wsc_aux false rest (line + 1)
    else skip_wsc_aux true rest line
  | false, c :: rest, line =>
    if c = ' ' ∨ c = '\t' ∨ c = '\r' then skip_wsc_aux false rest line
    else if c = '\n' then skip_wsc_aux false rest (line + 1)
    else if c = '#' then skip_wsc_aux true rest line
    else ⟨c :: rest, line⟩

/-- `Parser::skip_whitespaces_and_comments`. -/
def skip_wsc (st : PState) : PState :=
  skip_wsc_aux false st.input st.line

/-- Drop up to `k` leading base-16 digits: the characters the source's
repeated `read_digit(16)` calls consume before a failing `\uXXXX` escape. -/
def drop_hex : Nat → List Char → List Char
  | 0, l => l
  | k + 1, l =>
    match l with
    | c :: r => if (charToDigit 16 c).isSome then drop_hex k r else c :: r
    | [] => []

/-- `Parser::parse_string` (after the opening quote has been checked):
structural loop over the input; escapes are handled by deep pattern
matching so that each step consumes a syntactic suffix.  `\uXXXX` needs
exactly four hex digits and a code point accepted by `char::from_u32`. -/
def parse_string_loop (acc : List Char) : List Char → Nat → Option (List Char) × PState
  | [], line => (none, ⟨[], line⟩)
  | '\\' :: rest, line =>
    match rest with
    | 'b' :: r => parse_string_loop (acc ++ ['\x08']) r line
    | 't' :: r => parse_string_loop (acc ++ ['\t']) r line
    | 'n' :: r => parse_string_loop (acc ++ ['\n']) r line
    | 'f' :: r => parse_string_loop (acc ++ ['\x0C']) r line
    | 'r' :: r => parse_string_loop (acc ++ ['\r']) r line
    | '"' :: r => parse_string_loop (acc ++ ['"']) r line
    | '/' :: r => parse_string_loop (acc ++ ['/']) r line
    | '\\' :: r => parse_string_loop (acc ++ ['\\']) r line
    | 'u' :: a :: b :: c :: d :: r =>
      match charToDigit 16 a, charToDigit 16 b, charToDigit 16 c, charToDigit 16 d with
      | some d1, some d2, some d3, some d4 =>
        let n := ((((d1 * 16) + d2) * 16 + d3) * 16 + d4)
        if h : n.isValidChar then parse_string_loop (acc ++ [Char.ofNatAux n h]) r line
        else (none, ⟨r, line⟩)
      | _, _, _, _ =>
        -- some `read_digit(16)` failed: the source consumed exactly the
        -- maximal hex prefix of the four characters
        (none, ⟨drop_hex 4 (a :: b :: c :: d :: r), line⟩)
    | 'u' :: short =>
      -- fewer than four characters follow `\u`: the source consumed the
      -- maximal hex prefix before failing at end of input
      (none, ⟨drop_hex 4 short, line⟩)
    | _ => (none, ⟨rest, line⟩)
  | c :: rest, line =>
    if c = '\r' ∨ c = '\n' ∨ c = '\x0C' ∨ c = '\x08' then (none, ⟨c :: rest, line⟩)
    else if c = '"' then (some acc, ⟨rest, line⟩)
    else parse_string_loop (acc ++ [c]) rest line

/-- `Parser::parse_string`. -/
def parse_string (st : PState) : Option (List Char) × PState :=
  match advance_if '"' st with
  | (true, st') => parse_string_loop [] st'.input st'.line
  | (false, st') => (none, st')

/-- Short-circuit chain of `advance_if` calls, as in the source's
`self.advance_if('r') && self.advance_if('u') && ...`. -/
def advance_seq : List Char → PState → Bool × PState
  | [], st => (true, st)
  | c :: cs, st =>
    match advance_if c st with
    | (true, st') => advance_seq cs st'
    | (false, st') => (false, st')

/-- The array-element compatibility check of `Parser::parse_value`: a new
element must have a type equivalent to the first accumulated one; the
first element is always accepted. -/
def compatible_with (arr : List Value) (val : Value) : Bool :=
  match arr with
  | [] => true
  | a :: _ => have_equiv_types a val

/-- The strict datetime tail of `Parser::parse_value`, entered after
exactly 4 digits (value `n`) and the `-` have been consumed: reads
`MM-DDThh:mm:ssZ` with `read_two_digits`/`advance_if`, then checks the
field ranges; any failure yields `NoValue` for the whole value. -/
def parse_datetime (n : Nat) (st3 : PState) : Value × PState :=
  let year := n
  let (month, st4) := read_two_digits st3
  match month with
  | none => (.NoValue, st4)
  | some mo =>
    match advance_if '-' st4 with
    | (false, st5) => (.NoValue, st5)
    | (true, st5) =>
      let (day, st6) := read_two_digits st5
      match day with
      | none => (.NoValue, st6)
      | some d =>
        match advance_if 'T' st6 with
        | (false, st7) => (.NoValue, st7)
        | (true, st7) =>
          let (hour, st8) := read_two_digits st7
          match hour with
          | none => (.NoValue, st8)
          | some h =>
            match advance_if ':' st8 with
            | (false, st9) => (.NoValue, st9)
            | (true, st9) =>
              let (mins, st10) := read_two_digits st9
              match mins with
              | none => (.NoValue, st10)
              | some mi =>
                match advance_if ':' st10 with
                | (false, st11) => (.NoValue, st11)
                | (true, st11) =>
                  let (sec, st12) := read_two_digits st11
                  match sec with
                  | none => (.NoValue, st12)
                  | some se =>
                    match advance_if 'Z' st12 with
                    | (false, st13) => (.NoValue, st13)
                    | (true, st13) =>
                      if mo > 0 ∧ mo ≤ 12 ∧ d > 0 ∧ d ≤ 31 ∧
                         h ≤ 24 ∧ mi ≤ 60 ∧ se ≤ 60 then
                        -- `year as u16`
                        (.Datetime (year % 2 ^ 16) mo d h mi se, st13)
                      else (.NoValue, st13)  -- invalid range

/-- The `'-'` branch of `Parser::parse_value` (entered after consuming the
minus sign): digits, then either a float mantissa or a `Signed`. -/
def parse_number_neg (st1 : PState) : Value × PState :=
  match read_digits st1 with
  | (some n, _, st2) =>
    match st2.input with
    | '.' :: r2 => parse_float_rest n (-1) ⟨r2, st2.line⟩
    | _ => (.Signed n, st2)
  | (none, _, st2) => (.NoValue, st2)

/-- The `'0' .. '9'` branch of `Parser::parse_value`: digits, then a float
mantissa after `.`, the strict datetime tail after `-` (only when exactly
4 digits were consumed), or an `Unsigned`. -/
def parse_number (st : PState) : Value × PState :=
  match read_digits st with
  | (some n, ndigits, st2) =>
    match st2.input with
    | '.' :: r2 => parse_float_rest n 1 ⟨r2, st2.line⟩
    | '-' :: r2 =>
      if ndigits ≠ 4 then (.NoValue, st2)  -- invalid datetime
      else parse_datetime n ⟨r2, st2.line⟩
    | _ => (.Unsigned n, st2)
  | (none, _, st2) => (.NoValue, st2)  -- source: assert!(false)

/-- The two mutually recursive pieces of `Parser::parse_value`: the entry
dispatch and the array-element loop.  Folding them into one fueled
function keeps the recursion structural so that closed runs compute. -/
inductive PMode where
  | value : PMode
  | arrLoop : PMode

/-- `Parser::parse_value` (mode `.value`, the fourth argument unused) and
its inner array loop (mode `.arrLoop`, fourth argument the accumulated
elements).  Fuel `0` yields `none`; `some` is a genuine source result. -/
def pv : Nat → PMode → PState → List Value → Option (Value × PState)
  | 0, _, _, _ => none
  | fuel + 1, .value, st0, _ =>
    let st := skip_wsc st0
    match st.input with
    | [] => some (.NoValue, st)
    | c :: rest =>
      if c = '-' then some (parse_number_neg ⟨rest, st.line⟩)
      else if isDigitCh c then some (parse_number st)
      else if c = 't' then
        match advance_seq ['r', 'u', 'e'] ⟨rest, st.line⟩ with
        | (true, st') => some (.Boolean true, st')
        | (false, st') => some (.NoValue, st')
      else if c = 'f' then
        match advance_seq ['a', 'l', 's', 'e'] ⟨rest, st.line⟩ with
        | (true, st') => some (.Boolean false, st')
        | (false, st') => some (.NoValue, st')
      else if c = '[' then
        pv fuel .arrLoop ⟨rest, st.line⟩ []
      else if c = '"' then
        match parse_string st with
        | (some s, st') => some (.String s, st')
        | (none, st') => some (.NoValue, st')
      else some (.NoValue, st)
  | fuel + 1, .arrLoop, st, arr =>
    match pv fuel .value st [] with
    | none => none
    | some (.NoValue, st') =>
      -- break: no further element
      let st'' := skip_wsc st'
      match advance_if ']' st'' with
      | (true, st3) => some (.Array arr, st3)
      | (false, st3) => some (.NoValue, st3)
    | some (val, st') =>
      if compatible_with arr val then
        let st'' := skip_wsc st'
        match advance_if ',' st'' with
        | (true, st3) => pv fuel .arrLoop st3 (arr ++ [val])
        | (false, st3) =>
          -- break after the last element
          let st4 := skip_wsc st3
          match advance_if ']' st4 with
          | (true, st5) => some (.Array (arr ++ [val]), st5)
          | (false, st5) => some (.NoValue, st5)
      else some (.NoValue, st')  -- incompatible element types

/-- `Parser::parse_value` proper. -/
def parse_value (fuel : Nat) (st : PState) : Option (Value × PState) :=
  pv fuel .value st []

/-- The section-header part of the `'['` branch of `Parser::parse`,
entered after the first `[` has been consumed: optional second `[`, the
identifier (which must be nonempty), matching closing bracket(s).
`none` models every `return false` of that stretch. -/
def read_section_header (st1 : PState) : Option (List Char × Bool × PState) :=
  let (double_section, st2) := advance_if '[' st1
  let (section_name, st3) := parse_section_identifier st2
  -- do not allow empty section names
  if section_name = [] then none
  else
    match advance_if ']' st3 with
    | (false, _) => none
    | (true, st4) =>
      match (if double_section then advance_if ']' st4 else (true, st4)) with
      | (false, _) => none
      | (true, st5) => some (section_name, double_section, st5)

/-- The key-and-`=` part of the identifier branch of `Parser::parse`:
a bare key token (terminated by whitespace or `=`), whitespace, then a
required `=`.  `none` models the `return false` on a missing `=`. -/
def read_key_eq (st : PState) : Option (List Char × PState) :=
  let (ident, st1) :=
    read_token (fun ch => !(ch = ' ' ∨ ch = '\t' ∨ ch = '\r' ∨ ch = '\n' ∨ ch = '=')) st
  let st2 := skip_whitespaces st1
  match advance_if '=' st2 with
  | (false, _) => none
  | (true, st3) => some (ident, st3)

/-- `Parser::parse`, specialised (as in `parse_from_buffer`) to the
`ValueBuilder` visitor.  `some (true, b)` is a successful run, `some
(false, b)` an aborted one; `none` is fuel exhaustion only. -/
def parse : Nat → PState → ValueBuilder → Option (Bool × ValueBuilder)
  | 0, _, _ => none
  | fuel + 1, st0, b =>
    let st := skip_wsc st0
    match st.input with
    | [] => some (true, b)
    | '[' :: rest =>
      match read_section_header ⟨rest, st.line⟩ with
      | none => some (false, b)
      | some (section_name, double_section, st5) =>
        match b.open_section section_name double_section with
        | none => some (false, b)
        | some b' => parse fuel st5 b'
    | _ :: _ =>
      -- identifier: anything else starts one
      match read_key_eq st with
      | none => some (false, b)
      | some (ident, st3) =>
        match pv fuel .value st3 [] with
        | none => none
        | some (.NoValue, _) => some (false, b)
        | some (val, st4) =>
          match b.pair ident val with
          | none => some (false, b)
          | some b' => parse fuel st4 b'

/-- `parse_from_buffer`, with the ghost trace alongside the result value:
a successful run returns the root as a `Table`, an aborted one `NoValue`.
`none` is fuel exhaustion only. -/
def parse_from_buffer (fuel : Nat) (s : List Char) : Option (Value × List TraceEntry) :=
  match parse fuel (pnew s) ValueBuilder.new with
  | none => none
  | some (true, b) => some (.Table b.root, b.trace)
  | some (false, b) => some (.NoValue, b.trace)

/-! ## Helper lemmas about the map model -/

theorem mfind_minsert_self (m : TMap) (k : List Char) (v : Value) :
    mfind (minsert m k v) k = some v := by
  induction m with
  | nil => simp [minsert, mfind]
  | cons e rest ih =>
    by_cases h : e.1 = k
    · simp [minsert, h, mfind]
    · simp [minsert, h, mfind, ih]

theorem mfind_minsert_other (m : TMap) (k k' : List Char) (v : Value) (h : k ≠ k') :
    mfind (minsert m k v) k' = mfind m k' := by
  induction m with
  | nil => simp [minsert, mfind, h]
  | cons e rest ih =>
    by_cases he : e.1 = k
    · simp [minsert, he, mfind, h, ih]
    · simp only [minsert, if_neg he, mfind]
      by_cases he' : e.1 = k' <;> simp [he', ih]

theorem minsert_same (m : TMap) (k : List Char) (v : Value) (h : mfind m k = some v) :
    minsert m k v = m := by
  induction m with
  | nil => simp [mfind] at h
  | cons e rest ih =>
    by_cases he : e.1 = k
    · simp only [mfind, if_pos he] at h
      cases e with
      | mk k0 v0 =>
        simp only at he
        subst he
        simp only [Option.some.injEq] at h
        simp [minsert, h]
    · simp only [mfind, if_neg he] at h
      simp [minsert, he, ih h]

theorem mfind_append_left (m m' : TMap) (k : List Char) (v : Value)
    (h : mfind m k = some v) : mfind (m ++ m') k = some v := by
  induction m with
  | nil => simp [mfind] at h
  | cons e rest ih =>
    by_cases he : e.1 = k
    · simpa [mfind, he] using h
    · simp only [mfind, if_neg he] at h ⊢
      simpa [mfind, he] using ih h

theorem mfind_append_self (m : TMap) (k : List Char) (v : Value)
    (h : mfind m k = none) : mfind (m ++ [(k, v)]) k = some v := by
  induction m with
  | nil => simp [mfind]
  | cons e rest ih =>
    by_cases he : e.1 = k
    · simp [mfind, he] at h
    · simp only [mfind, if_neg he] at h ⊢
      simpa [mfind, he] using ih h

/-- Splitting a path-element lookup at an append. -/
theorem lookup_path_elts_append (v : Value) (xs ys : List PathElement) :
    v.lookup_path_elts (xs ++ ys)
      = (v.lookup_path_elts xs).bind (fun w => w.lookup_path_elts ys) := by
  induction xs generalizing v with
  | nil => simp [Value.lookup_path_elts]
  | cons x xs ih =>
    cases x with
    | Key k =>
      simp only [List.cons_append, Value.lookup_path_elts]
      cases v.lookup_key k with
      | none => simp
      | some w => simp [ih w]
    | Idx i =>
      simp only [List.cons_append, Value.lookup_path_elts]
      cases v.lookup_idx i with
      | none => simp
      | some w => simp [ih w]

/-! ## Character / digit-run lemmas -/

/-- Discriminator for the two container kinds the builder walks through. -/
def isTableLike : Value → Bool
  | .Table _ => true
  | .TableArray _ => true
  | _ => false

/-- The numeric value of a decimal digit character. -/
def dval (c : Char) : Nat := c.toNat - 48

/-- The value `read_digits` accumulates over a digit run (with the
source's wrapping `u64` arithmetic). -/
def digitsVal64 (ds : List Char) : Nat :=
  ds.foldl (fun a c => (a * 10 + dval c) % 2 ^ 64) 0

theorem charToDigit10_eq_some (c : Char) (h : isDigitCh c = true) :
    charToDigit 10 c = some (dval c) := by
  have h' : '0' ≤ c ∧ c ≤ '9' := of_decide_eq_true h
  have h9 : c.toNat ≤ 57 := h'.2
  have h0 : (48 : Nat) ≤ c.toNat := h'.1
  have hz : '0'.toNat = 48 := rfl
  simp only [charToDigit, if_pos h']
  rw [if_pos (by omega : c.toNat - '0'.toNat < 10)]
  simp [dval, hz]

theorem charToDigit10_eq_none (c : Char) (h : isDigitCh c = false) :
    charToDigit 10 c = none := by
  have h' : ¬('0' ≤ c ∧ c ≤ '9') := of_decide_eq_false h
  simp only [charToDigit, if_neg h']
  by_cases ha : 'a' ≤ c ∧ c ≤ 'z'
  · rw [if_pos ha, if_neg (by omega : ¬(c.toNat - 'a'.toNat + 10 < 10))]
  · rw [if_neg ha]
    by_cases hA : 'A' ≤ c ∧ c ≤ 'Z'
    · rw [if_pos hA, if_neg (by omega : ¬(c.toNat - 'A'.toNat + 10 < 10))]
    · rw [if_neg hA, if_neg (by omega : ¬(10 < 10))]

theorem charToDigit10_some_inv (c : Char) (n : Nat) (h : charToDigit 10 c = some n) :
    isDigitCh c = true ∧ n = dval c := by
  by_cases hd : isDigitCh c = true
  · rw [charToDigit10_eq_some c hd] at h
    exact ⟨hd, (Option.some.injEq _ _ ▸ h).symm⟩
  · rw [charToDigit10_eq_none c (by simpa using hd)] at h
    cases h

theorem dval_lt_ten (c : Char) (h : isDigitCh c = true) : dval c < 10 := by
  have h' : '0' ≤ c ∧ c ≤ '9' := of_decide_eq_true h
  have h9 : c.toNat ≤ 57 := h'.2
  have h0 : (48 : Nat) ≤ c.toNat := h'.1
  unfold dval
  omega

theorem read_digits_loop_run (ds : List Char) :
    ∀ (rest : List Char) (acc nd : Nat),
      ds.all isDigitCh = true →
      (∀ c, rest.head? = some c → isDigitCh c = false) →
      read_digits_loop (ds ++ rest) acc nd =
        (ds.foldl (fun a c => (a * 10 + dval c) % 2 ^ 64) acc, nd + ds.length, rest) := by
  induction ds with
  | nil =>
    intro rest acc nd _ hrest
    cases rest with
    | nil => simp [read_digits_loop]
    | cons c r =>
      have hc : isDigitCh c = false := hrest c rfl
      simp [read_digits_loop, charToDigit10_eq_none c hc]
  | cons d ds ih =>
    intro rest acc nd hall hrest
    simp only [List.all_cons, Bool.and_eq_true] at hall
    simp only [List.cons_append, read_digits_loop, charToDigit10_eq_some d hall.1,
      List.append_eq]
    rw [ih rest ((acc * 10 + dval d) % 2 ^ 64) (nd + 1) hall.2 hrest]
    simp only [List.foldl_cons, List.length_cons, Prod.mk.injEq, true_and, and_true]
    omega


theorem read_digits_run (c : Char) (ds rest : List Char) (line : Nat)
    (hall : (c :: ds).all isDigitCh = true)
    (hrest : ∀ c', rest.head? = some c' → isDigitCh c' = false) :
    read_digits ⟨(c :: ds) ++ rest, line⟩ =
      (some (digitsVal64 (c :: ds)), (c :: ds).length, ⟨rest, line⟩) := by
  simp only [List.all_cons, Bool.and_eq_true] at hall
  have hmod : (0 * 10 + dval c) % 2 ^ 64 = dval c := by
    have h10 := dval_lt_ten c hall.1
    have hp : (2 : Nat) ^ 64 = 18446744073709551616 := by norm_num
    omega
  simp only [read_digits, read_digit, List.cons_append, charToDigit10_eq_some c hall.1]
  rw [read_digits_loop_run ds rest (dval c) 1 hall.2 hrest]
  simp only [digitsVal64, List.foldl_cons, hmod, List.length_cons, Prod.mk.injEq,
    true_and, and_true]
  omega

theorem read_digit_some_inv (radix : Nat) (st st' : PState) (m : Nat)
    (h : read_digit radix st = (some m, st')) :
    ∃ c, st.input = c :: st'.input ∧ charToDigit radix c = some m ∧ st'.line = st.line := by
  cases st with
  | mk input line =>
    cases input with
    | nil => simp [read_digit] at h
    | cons c r =>
      simp only [read_digit] at h
      cases hc : charToDigit radix c with
      | none => rw [hc] at h; cases h
      | some v =>
        rw [hc] at h
        simp only [Prod.mk.injEq, Option.some.injEq] at h
        exact ⟨c, by simp [← h.2], by rw [← h.1, hc], by simp [← h.2]⟩

theorem read_digits_loop_inv (l : List Char) :
    ∀ (acc nd n' nd' : Nat) (rest' : List Char),
      read_digits_loop l acc nd = (n', nd', rest') →
      ∃ ds, l = ds ++ rest' ∧ ds.all isDigitCh = true ∧ nd' = nd + ds.length ∧
        n' = ds.foldl (fun a c => (a * 10 + dval c) % 2 ^ 64) acc ∧
        (∀ c, rest'.head? = some c → isDigitCh c = false) := by
  induction l with
  | nil =>
    intro acc nd n' nd' rest' h
    simp only [read_digits_loop, Prod.mk.injEq] at h
    obtain ⟨rfl, rfl, rfl⟩ := h
    exact ⟨[], by simp, by simp, by simp, by simp, by intro c hc; cases hc⟩
  | cons c r ih =>
    intro acc nd n' nd' rest' h
    simp only [read_digits_loop] at h
    cases hc : charToDigit 10 c with
    | some v =>
      rw [hc] at h
      obtain ⟨ds, rfl, hds, hnd, hn, hrest⟩ :=
        ih ((acc * 10 + v) % 2 ^ 64) (nd + 1) n' nd' rest' h
      obtain ⟨hdig, rfl⟩ := charToDigit10_some_inv c v hc
      exact ⟨c :: ds, rfl, by simp [hdig, hds], by simp [hnd]; omega,
        by simp [hn], hrest⟩
    | none =>
      rw [hc] at h
      simp only [Prod.mk.injEq] at h
      obtain ⟨rfl, rfl, rfl⟩ := h
      refine ⟨[], rfl, rfl, by simp, rfl, ?_⟩
      intro c' hc'
      simp only [List.head?_cons, Option.some.injEq] at hc'
      subst hc'
      by_cases hd : isDigitCh c = true
      · rw [charToDigit10_eq_some c hd] at hc; cases hc
      · simpa using hd

theorem read_digits_some_inv (st st2 : PState) (n nd : Nat)
    (h : read_digits st = (some n, nd, st2)) :
    ∃ c ds, st.input = (c :: ds) ++ st2.input ∧ (c :: ds).all isDigitCh = true ∧
      nd = (c :: ds).length ∧ n = digitsVal64 (c :: ds) ∧ st2.line = st.line ∧
      (∀ c', st2.input.head? = some c' → isDigitCh c' = false) := by
  simp only [read_digits] at h
  cases hr : read_digit 10 st with
  | mk d1 st1 =>
    cases d1 with
    | none => rw [hr] at h; cases h
    | some m =>
      rw [hr] at h
      obtain ⟨c, hin, hc, hline⟩ := read_digit_some_inv 10 st st1 m hr
      obtain ⟨hdig, rfl⟩ := charToDigit10_some_inv c m hc
      simp only [Prod.mk.injEq, Option.some.injEq] at h
      obtain ⟨hn, hnd, hst2⟩ := h
      obtain ⟨ds, hin1, hds, hnd', hn', hrest⟩ :=
        read_digits_loop_inv st1.input (dval c) 1 _ _ _ (by rfl)
      refine ⟨c, ds, ?_, by simp [hdig, hds], ?_, ?_, ?_, ?_⟩
      · rw [hin]
        conv_lhs => rw [hin1]
        rw [← hst2]
        simp
      · rw [← hnd, hnd']; simp; omega
      · rw [← hn, hn']
        simp only [digitsVal64, List.foldl_cons]
        rw [show (0 * 10 + dval c) % 2 ^ 64 = dval c % 2 ^ 64 by norm_num]
        rw [show dval c % 2 ^ 64 = dval c by
          have h10 := dval_lt_ten c hdig
          have hp : (2 : Nat) ^ 64 = 18446744073709551616 := by norm_num
          omega]
      · rw [← hst2, hline]
      · rw [← hst2]; exact hrest

theorem advance_if_true_inv (c : Char) (st st' : PState)
    (h : advance_if c st = (true, st')) :
    st.input = c :: st'.input ∧ st'.line = st.line := by
  cases st with
  | mk input line =>
    cases input with
    | nil => simp [advance_if] at h
    | cons c' r =>
      simp only [advance_if] at h
      by_cases hc : c' = c
      · rw [if_pos hc] at h
        simp only [Prod.mk.injEq] at h
        subst hc
        simp [← h.2]
      · rw [if_neg hc] at h; cases h

theorem read_two_digits_run (c1 c2 : Char) (r : List Char) (line : Nat)
    (h1 : isDigitCh c1 = true) (h2 : isDigitCh c2 = true) :
    read_two_digits ⟨c1 :: c2 :: r, line⟩ = (some (dval c1 * 10 + dval c2), ⟨r, line⟩) := by
  simp [read_two_digits, read_digit, charToDigit10_eq_some c1 h1,
    charToDigit10_eq_some c2 h2]

theorem read_two_digits_some_inv (st st' : PState) (v : Nat)
    (h : read_two_digits st = (some v, st')) :
    ∃ c1 c2, st.input = c1 :: c2 :: st'.input ∧ isDigitCh c1 = true ∧
      isDigitCh c2 = true ∧ v = dval c1 * 10 + dval c2 ∧ st'.line = st.line := by
  simp only [read_two_digits] at h
  cases hr1 : read_digit 10 st with
  | mk d1 st1 =>
    cases hr2 : read_digit 10 st1 with
    | mk d2 st2 =>
      rw [hr1, hr2] at h
      cases d1 with
      | none => cases h
      | some m1 =>
        cases d2 with
        | none => cases h
        | some m2 =>
          simp only [Prod.mk.injEq, Option.some.injEq] at h
          obtain ⟨c1, hi1, hc1, hl1⟩ := read_digit_some_inv 10 st st1 m1 hr1
          obtain ⟨c2, hi2, hc2, hl2⟩ := read_digit_some_inv 10 st1 st2 m2 hr2
          obtain ⟨hd1, rfl⟩ := charToDigit10_some_inv c1 m1 hc1
          obtain ⟨hd2, rfl⟩ := charToDigit10_some_inv c2 m2 hc2
          refine ⟨c1, c2, ?_, hd1, hd2, h.1.symm, ?_⟩
          · rw [hi1, hi2, h.2]
          · rw [← h.2, hl2, hl1]

theorem skip_wsc_noop (c : Char) (r : List Char) (line : Nat)
    (h1 : c ≠ ' ') (h2 : c ≠ '\t') (h3 : c ≠ '\r') (h4 : c ≠ '\n') (h5 : c ≠ '#') :
    skip_wsc ⟨c :: r, line⟩ = ⟨c :: r, line⟩ := by
  simp only [skip_wsc, skip_wsc_aux]
  rw [if_neg (by simp [h1, h2, h3]), if_neg h4, if_neg h5]

theorem skip_wsc_noop_digit (c : Char) (r : List Char) (line : Nat)
    (h : isDigitCh c = true) : skip_wsc ⟨c :: r, line⟩ = ⟨c :: r, line⟩ :=
  skip_wsc_noop c r line
    (by rintro rfl; exact absurd h (by decide))
    (by rintro rfl; exact absurd h (by decide))
    (by rintro rfl; exact absurd h (by decide))
    (by rintro rfl; exact absurd h (by decide))
    (by rintro rfl; exact absurd h (by decide))

theorem parse_float_rest_nodigit (n : Nat) (mul : ℚ) (rest : List Char) (line : Nat)
    (hrest : ∀ c', rest.head? = some c' → isDigitCh c' = false) :
    parse_float_rest n mul ⟨rest, line⟩ = (.NoValue, ⟨rest, line⟩) := by
  cases rest with
  | nil => rfl
  | cons c r =>
    simp only [parse_float_rest]
    rw [if_neg (by simp [hrest c rfl])]

/-- Evaluation of the digit branch of the value parser on a maximal digit
run: the dispatcher reaches `parse_number`. -/
theorem pv_digit_branch (fuel : Nat) (c : Char) (r : List Char) (line : Nat)
    (hc : isDigitCh c = true) :
    pv (fuel + 1) .value ⟨c :: r, line⟩ [] = some (parse_number ⟨c :: r, line⟩) := by
  simp only [pv, skip_wsc_noop_digit c r line hc]
  rw [if_neg (by rintro rfl; exact absurd hc (by decide)), if_pos hc]

/-- Evaluation of the `'-'` branch of the value parser. -/
theorem pv_neg_branch (fuel : Nat) (r : List Char) (line : Nat) :
    pv (fuel + 1) .value ⟨'-' :: r, line⟩ [] = some (parse_number_neg ⟨r, line⟩) := by
  simp only [pv, skip_wsc_noop '-' r line (by decide) (by decide) (by decide)
    (by decide) (by decide)]
  simp

/-! ## Claim theorems -/

/-- C3 counterexample.  `lookup_path_elts` routes numeric segments through
`lookup_idx`, which accepts only a `TableArray`: a dotted query with an
index segment over an `Array` value returns `none`, not the element, so an
index is NOT valid against `Array` nodes. -/
theorem C3_counterexample :
    Value.lookup (.Table [(['a'], .Array [.Unsigned 7])]) ['a', '.', '0'] = none ∧
    (Value.Array [.Unsigned 7]).lookup_vec 0 = some (.Unsigned 7) :=
  ⟨rfl, rfl⟩

/-- C3 (amended).  In `Value::lookup`, a segment that parses as a
non-negative integer is an index valid only against `TableArray` nodes:
extending a path that reaches a `TableArray` by an in-range index returns
that element, while extending a path that reaches an `Array` by any index
segment returns `none` (only the unused `lookup_vec` accessor indexes
`Array`s). -/
theorem C3_index_segments :
    (∀ (t : Value) (p : List PathElement) (ts : List Value) (i : Nat) (x : Value),
      t.lookup_path_elts p = some (.TableArray ts) → ts.get? i = some x →
      t.lookup_path_elts (p ++ [.Idx i]) = some x)
    ∧ (∀ (t : Value) (p : List PathElement) (vs : List Value) (i : Nat),
      t.lookup_path_elts p = some (.Array vs) →
      t.lookup_path_elts (p ++ [.Idx i]) = none) := by
  constructor
  · intro t p ts i x hp hi
    rw [lookup_path_elts_append, hp]
    rw [List.get?_eq_getElem?] at hi
    simp [Value.lookup_path_elts, Value.lookup_idx, hi]
  · intro t p vs i hp
    rw [lookup_path_elts_append, hp]
    simp [Value.lookup_path_elts, Value.lookup_idx]

theorem C3_witness :
    (Value.lookup_path_elts (.Table [(['a'], .TableArray [.Table []])]) [.Key ['a']]
        = some (.TableArray [.Table []]))
    ∧ ([Value.Table []].get? 0 = some (.Table []))
    ∧ (Value.lookup_path_elts (.Table [(['a'], .TableArray [.Table []])])
        ([.Key ['a']] ++ [.Idx 0]) = some (.Table [])) :=
  ⟨rfl, rfl, C3_index_segments.1 _ _ _ 0 _ rfl rfl⟩

/-- C4 counterexample.  A non-terminal section segment that resolves to an
existing non-table value makes `recursive_create_tree` fail (`Some(_) =>
false`); it does NOT create a fresh `Table` and continue.  Consequently
`a=1` followed by `[a.b]` aborts the whole parse. -/
theorem C4_counterexample :
    recursive_create_tree [['a'], ['b']] [(['a'], .Unsigned 1)] false = none ∧
    (parse_from_buffer 8 ['a','=','1','\n','[','a','.','b',']']).map Prod.fst
      = some .NoValue :=
  ⟨rfl, rfl⟩

/-- C4 (amended).  For a non-terminal segment, `open_section`'s recursion
fails outright when the segment resolves to an existing value that is
neither a `Table` nor a `TableArray`; a fresh `Table` is created (with the
recursion continuing inside it) only when the segment is absent. -/
theorem C4_open_section_wrong_kind :
    (∀ (k : List Char) (ps : List (List Char)) (ht : TMap) (is_array : Bool) (v : Value),
      mfind ht k = some v → isTableLike v = false →
      recursive_create_tree (k :: ps) ht is_array = none)
    ∧ (∀ (k p2 : List Char) (ps : List (List Char)) (ht : TMap) (is_array : Bool),
      mfind ht k = none → k ≠ [] →
      recursive_create_tree (k :: p2 :: ps) ht is_array =
        (recursive_create_tree (p2 :: ps) [] is_array).map
          (fun sub => minsert ht k (.Table sub))) := by
  constructor
  · intro k ps ht is_array v hfind hkind
    by_cases hk : k = []
    · simp [recursive_create_tree, hk]
    · simp only [recursive_create_tree, if_neg hk, hfind]
      cases v <;> simp_all [isTableLike]
  · intro k p2 ps ht is_array hfind hk
    simp only [recursive_create_tree, if_neg hk, hfind]

theorem C4_witness :
    (mfind [(['a'], .Unsigned 1)] ['a'] = some (.Unsigned 1))
    ∧ (isTableLike (.Unsigned 1) = false)
    ∧ (recursive_create_tree [['a'], ['b']] [(['a'], .Unsigned 1)] true = none) :=
  ⟨rfl, rfl, C4_open_section_wrong_kind.1 ['a'] [['b']] _ true _ rfl rfl⟩

/-- C5 counterexample.  On `123-` the value parser returns the failure
sentinel `NoValue` (with the `-` unconsumed), not `Unsigned 123`: a digit
run followed by `-` with a digit count other than 4 aborts the value. -/
theorem C5_counterexample :
    parse_value 8 ⟨['1', '2', '3', '-'], 1⟩ = some (.NoValue, ⟨['-'], 1⟩) ∧
    Value.NoValue ≠ Value.Unsigned 123 :=
  ⟨rfl, fun h => nomatch h⟩

/-- C5 (amended).  For every value beginning with a digit run immediately
followed by `-`, when the number of digits consumed is not exactly 4 the
value parser fails with `NoValue` (the `-` left unconsumed) — it does NOT
fall back to an `UnsignedInteger`; an `UnsignedInteger` is produced only
when the character after the digit run is neither `.` nor `-`. -/
theorem C5_digits_dash_not_four (fuel : Nat) (c : Char) (ds rest : List Char) (line : Nat)
    (hall : (c :: ds).all isDigitCh = true)
    (hlen : (c :: ds).length ≠ 4) :
    pv (fuel + 1) .value ⟨(c :: ds) ++ '-' :: rest, line⟩ [] =
      some (.NoValue, ⟨'-' :: rest, line⟩) := by
  have hc : isDigitCh c = true := by
    simp only [List.all_cons, Bool.and_eq_true] at hall; exact hall.1
  have hrd := read_digits_run c ds ('-' :: rest) line hall
    (by intro c' h'; simp only [List.head?_cons, Option.some.injEq] at h'; subst h'; decide)
  rw [show ((c :: ds) ++ '-' :: rest : List Char) = c :: (ds ++ '-' :: rest) from rfl]
  rw [pv_digit_branch fuel c (ds ++ '-' :: rest) line hc]
  simp only [parse_number]
  rw [show (⟨c :: (ds ++ '-' :: rest), line⟩ : PState)
      = ⟨(c :: ds) ++ '-' :: rest, line⟩ from rfl, hrd]
  simp only [if_pos hlen]

theorem C5_witness :
    (['1', '2', '3'].all isDigitCh = true)
    ∧ (['1', '2', '3'].length ≠ 4)
    ∧ (pv 1 .value ⟨['1', '2', '3', '-'], 1⟩ [] = some (.NoValue, ⟨['-'], 1⟩)) :=
  ⟨by decide, by decide, C5_digits_dash_not_four 0 '1' ['2', '3'] [] 1 (by decide) (by decide)⟩

/-- C10.  A numeric value whose digit run (with or without a leading `-`)
is immediately followed by a `.` that is not followed by at least one
decimal digit (including end of input) makes the value parser return the
failure sentinel, aborting the whole parse; in particular `x = 1.` is
rejected rather than producing `Float(1.0)`. -/
theorem C10_trailing_dot_fails :
    (∀ (fuel : Nat) (c : Char) (ds rest : List Char) (line : Nat),
      (c :: ds).all isDigitCh = true →
      (∀ c', rest.head? = some c' → isDigitCh c' = false) →
      pv (fuel + 1) .value ⟨(c :: ds) ++ '.' :: rest, line⟩ [] =
        some (.NoValue, ⟨rest, line⟩))
    ∧ (∀ (fuel : Nat) (c : Char) (ds rest : List Char) (line : Nat),
      (c :: ds).all isDigitCh = true →
      (∀ c', rest.head? = some c' → isDigitCh c' = false) →
      pv (fuel + 1) .value ⟨'-' :: ((c :: ds) ++ '.' :: rest), line⟩ [] =
        some (.NoValue, ⟨rest, line⟩))
    ∧ (parse_from_buffer 8 ['x', ' ', '=', ' ', '1', '.']).map Prod.fst = some .NoValue := by
  refine ⟨?_, ?_, rfl⟩
  · intro fuel c ds rest line hall hrest
    have hc : isDigitCh c = true := by
      simp only [List.all_cons, Bool.and_eq_true] at hall; exact hall.1
    have hrd := read_digits_run c ds ('.' :: rest) line hall
      (by intro c' h'; simp only [List.head?_cons, Option.some.injEq] at h'; subst h'; decide)
    rw [show ((c :: ds) ++ '.' :: rest : List Char) = c :: (ds ++ '.' :: rest) from rfl]
    rw [pv_digit_branch fuel c (ds ++ '.' :: rest) line hc]
    simp only [parse_number]
    rw [show (⟨c :: (ds ++ '.' :: rest), line⟩ : PState)
        = ⟨(c :: ds) ++ '.' :: rest, line⟩ from rfl, hrd]
    show some (parse_float_rest (digitsVal64 (c :: ds)) 1 ⟨rest, line⟩)
        = some (.NoValue, ⟨rest, line⟩)
    rw [parse_float_rest_nodigit (digitsVal64 (c :: ds)) 1 rest line hrest]
  · intro fuel c ds rest line hall hrest
    have hrd := read_digits_run c ds ('.' :: rest) line hall
      (by intro c' h'; simp only [List.head?_cons, Option.some.injEq] at h'; subst h'; decide)
    rw [pv_neg_branch fuel ((c :: ds) ++ '.' :: rest) line]
    simp only [parse_number_neg, hrd]
    show some (parse_float_rest (digitsVal64 (c :: ds)) (-1) ⟨rest, line⟩)
        = some (.NoValue, ⟨rest, line⟩)
    rw [parse_float_rest_nodigit (digitsVal64 (c :: ds)) (-1) rest line hrest]

theorem C10_witness :
    (['1'].all isDigitCh = true)
    ∧ (∀ c', ([] : List Char).head? = some c' → isDigitCh c' = false)
    ∧ (pv 1 .value ⟨['1', '.'], 1⟩ [] = some (.NoValue, ⟨[], 1⟩)) :=
  ⟨by decide, by intro c' h'; simp at h',
    C10_trailing_dot_fails.1 0 '1' [] [] 1 (by decide) (by intro c' h'; simp at h')⟩

/-- Value-kind discriminators used to state the spec's array type
compatibility relation. -/
def isBoolV : Value → Bool
  | .Boolean _ => true
  | _ => false

def isIntV : Value → Bool
  | .Unsigned _ => true
  | .Signed _ => true
  | _ => false

def isFloatV : Value → Bool
  | .Float _ => true
  | _ => false

def isStringV : Value → Bool
  | .String _ => true
  | _ => false

def isDatetimeV : Value → Bool
  | .Datetime _ _ _ _ _ _ => true
  | _ => false

def isArrayV : Value → Bool
  | .Array _ => true
  | _ => false

/-- The spec's wording of array element compatibility, written from the
spec (not from the source), for comparison with `have_equiv_types`:
Boolean~Boolean, any integer~any integer (sign-agnostic), Float~Float,
String~String, Datetime~Datetime, Array~Array (inner types unchecked). -/
def equivSpec (v w : Value) : Bool :=
  (isBoolV v && isBoolV w) || (isIntV v && isIntV w) || (isFloatV v && isFloatV w) ||
  (isStringV v && isStringV w) || (isDatetimeV v && isDatetimeV w) ||
  (isArrayV v && isArrayV w)

/-- C7.  Array elements are checked pairwise against the first accumulated
element under exactly the relation Boolean~Boolean, any-integer~any-integer,
Float~Float, String~String, Datetime~Datetime, Array~Array (inner element
types unchecked): `have_equiv_types` coincides with that relation, a newly
parsed element incompatible with the first accumulated one makes the whole
array value fail, and in particular `a = [1, 2, "x"]` fails to parse. -/
theorem C7_array_type_compat :
    (∀ v w, have_equiv_types v w = equivSpec v w)
    ∧ (∀ (fuel : Nat) (st st' : PState) (a : Value) (as' : List Value) (val : Value),
        pv fuel .value st [] = some (val, st') → val ≠ .NoValue →
        have_equiv_types a val = false →
        pv (fuel + 1) .arrLoop st (a :: as') = some (.NoValue, st'))
    ∧ (parse_from_buffer 8
        ['a', ' ', '=', ' ', '[', '1', ',', ' ', '2', ',', ' ', '"', 'x', '"', ']']).map
        Prod.fst = some .NoValue := by
  refine ⟨?_, ?_, rfl⟩
  · intro v w
    cases v <;> cases w <;> rfl
  · intro fuel st st' a as' val hpv hnv hcomp
    simp only [pv, hpv]
    cases val with
    | NoValue => exact absurd rfl hnv
    | Boolean b => simp [compatible_with, hcomp]
    | Unsigned n => simp [compatible_with, hcomp]
    | Signed n => simp [compatible_with, hcomp]
    | Float q => simp [compatible_with, hcomp]
    | String s => simp [compatible_with, hcomp]
    | Datetime y mo d hh mi se => simp [compatible_with, hcomp]
    | Array l => simp [compatible_with, hcomp]
    | TableArray l => simp [compatible_with, hcomp]
    | Table m => simp [compatible_with, hcomp]

theorem C7_witness :
    (pv 1 .value ⟨['"', 'x', '"', ']'], 1⟩ [] = some (.String ['x'], ⟨[']'], 1⟩))
    ∧ (Value.String ['x'] ≠ .NoValue)
    ∧ (have_equiv_types (.Unsigned 1) (.String ['x']) = false)
    ∧ (pv 2 .arrLoop ⟨['"', 'x', '"', ']'], 1⟩ [.Unsigned 1] = some (.NoValue, ⟨[']'], 1⟩)) :=
  by
  refine ⟨rfl, ?_, rfl, ?_⟩
  · intro h; exact Value.noConfusion h
  · exact C7_array_type_compat.2.1 1 ⟨['"', 'x', '"', ']'], 1⟩ ⟨[']'], 1⟩ (.Unsigned 1) []
      (.String ['x']) rfl (fun h => Value.noConfusion h) rfl

/-- C2.  Parsing `[[fruit]]\nname="apple"\n[[fruit]]\nname="banana"\n`
succeeds and produces a root whose entry at key `fruit` is a `TableArray`
of exactly two `Table`s; looking up `fruit.0.name` yields the String
`apple` and `fruit.1.name` the String `banana`: each repeated
double-bracket header appends one new empty `Table` and subsequent pairs
go into that last `Table`. -/
theorem C2_table_array_example :
    (parse_from_buffer 8 ['[','[','f','r','u','i','t',']',']','\n',
        'n','a','m','e','=','"','a','p','p','l','e','"','\n',
        '[','[','f','r','u','i','t',']',']','\n',
        'n','a','m','e','=','"','b','a','n','a','n','a','"','\n']).map Prod.fst
      = some (.Table [(['f','r','u','i','t'],
          .TableArray [.Table [(['n','a','m','e'], .String ['a','p','p','l','e'])],
                       .Table [(['n','a','m','e'], .String ['b','a','n','a','n','a'])]])])
    ∧ (parse_from_buffer 8 ['[','[','f','r','u','i','t',']',']','\n',
        'n','a','m','e','=','"','a','p','p','l','e','"','\n',
        '[','[','f','r','u','i','t',']',']','\n',
        'n','a','m','e','=','"','b','a','n','a','n','a','"','\n']).map
          (fun p => p.1.lookup ['f','r','u','i','t','.','0','.','n','a','m','e'])
      = some (some (.String ['a','p','p','l','e']))
    ∧ (parse_from_buffer 8 ['[','[','f','r','u','i','t',']',']','\n',
        'n','a','m','e','=','"','a','p','p','l','e','"','\n',
        '[','[','f','r','u','i','t',']',']','\n',
        'n','a','m','e','=','"','b','a','n','a','n','a','"','\n']).map
          (fun p => p.1.lookup ['f','r','u','i','t','.','1','.','n','a','m','e'])
      = some (some (.String ['b','a','n','a','n','a'])) :=
  ⟨rfl, rfl, rfl⟩

theorem getLast?_set_last {α : Type} (l : List α) (x : α) (h : l ≠ []) :
    (l.set (l.length - 1) x).getLast? = some x := by
  have hpos : 0 < l.length := List.length_pos.mpr h
  rw [List.getLast?_eq_getElem?]
  simp only [List.length_set]
  rw [List.getElem?_set_eq_of_lt x (show l.length - 1 < l.length by omega)]

theorem set_last_ne_nil {α : Type} (l : List α) (x : α) (h : l ≠ []) :
    l.set (l.length - 1) x ≠ [] := by
  intro hc
  exact h (by simpa using congrArg List.length hc)

/-- Re-opening a bare (`is_array = false`) section that was just opened
succeeds and leaves the tree unchanged. -/
theorem rct_reopen (path : List (List Char)) :
    ∀ (ht ht' : TMap), recursive_create_tree path ht false = some ht' →
      recursive_create_tree path ht' false = some ht' := by
  induction path with
  | nil => intro ht ht' h; simp [recursive_create_tree] at h
  | cons p ps ih =>
    intro ht ht' h
    simp only [recursive_create_tree] at h ⊢
    by_cases hp : p = []
    · simp [hp] at h
    · rw [if_neg hp] at h ⊢
      cases hfind : mfind ht p with
      | none =>
        rw [hfind] at h
        cases ps with
        | nil =>
          simp only [Bool.false_eq_true, if_false, Option.some.injEq] at h
          subst h
          rw [mfind_minsert_self]
          simp
        | cons p2 ps2 =>
          simp only [Bool.false_eq_true] at h
          simp only [Option.map_eq_some'] at h
          obtain ⟨sub, hrec, hht⟩ := h
          subst hht
          rw [mfind_minsert_self]
          simp only [ih [] sub hrec, Option.map_some', Option.some.injEq]
          exact minsert_same _ _ _ (mfind_minsert_self _ _ _)
      | some v =>
        rw [hfind] at h
        cases v with
        | Table t =>
          cases ps with
          | nil =>
            simp only [Bool.false_eq_true, if_false, Option.some.injEq] at h
            subst h
            rw [hfind]
            simp
          | cons p2 ps2 =>
            simp only [Option.map_eq_some'] at h
            obtain ⟨t', hrec, hht⟩ := h
            subst hht
            rw [mfind_minsert_self]
            simp only [ih t t' hrec, Option.map_some', Option.some.injEq]
            exact minsert_same _ _ _ (mfind_minsert_self _ _ _)
        | TableArray ta =>
          cases ps with
          | nil => simp at h
          | cons p2 ps2 =>
            cases hlast : ta.getLast? with
            | none => simp [hlast] at h
            | some lv =>
              have hne : ta ≠ [] := by
                intro hc; subst hc; simp [List.getLast?] at hlast
              cases lv with
              | Table hmap =>
                simp only [hlast, Option.map_eq_some'] at h
                obtain ⟨hm', hrec, hht⟩ := h
                subst hht
                rw [mfind_minsert_self]
                simp only [getLast?_set_last ta (.Table hm') hne, ih hmap hm' hrec,
                  Option.map_some', Option.some.injEq, List.length_set, List.set_set]
                exact minsert_same _ _ _ (mfind_minsert_self _ _ _)
              | NoValue => simp [hlast] at h
              | Boolean b => simp [hlast] at h
              | Unsigned n => simp [hlast] at h
              | Signed n => simp [hlast] at h
              | Float q => simp [hlast] at h
              | String s => simp [hlast] at h
              | Datetime y mo d hh mi se => simp [hlast] at h
              | Array l => simp [hlast] at h
              | TableArray l => simp [hlast] at h
        | NoValue => simp at h
        | Boolean b => simp at h
        | Unsigned n => simp at h
        | Signed n => simp at h
        | Float q => simp at h
        | String s => simp at h
        | Datetime y mo d hh mi se => simp at h
        | Array l => simp at h

/-- After a bare (`is_array = false`) section has been opened, re-opening
the same path with a double-bracket header fails. -/
theorem rct_false_then_true (path : List (List Char)) :
    ∀ (ht ht' : TMap), recursive_create_tree path ht false = some ht' →
      recursive_create_tree path ht' true = none := by
  induction path with
  | nil => intro ht ht' h; simp [recursive_create_tree] at h
  | cons p ps ih =>
    intro ht ht' h
    simp only [recursive_create_tree] at h ⊢
    by_cases hp : p = []
    · simp [hp] at h
    · rw [if_neg hp] at h ⊢
      cases hfind : mfind ht p with
      | none =>
        rw [hfind] at h
        cases ps with
        | nil =>
          simp only [Bool.false_eq_true, if_false, Option.some.injEq] at h
          subst h
          rw [mfind_minsert_self]
          simp
        | cons p2 ps2 =>
          simp only [Bool.false_eq_true] at h
          simp only [Option.map_eq_some'] at h
          obtain ⟨sub, hrec, hht⟩ := h
          subst hht
          rw [mfind_minsert_self]
          simp [ih [] sub hrec]
      | some v =>
        rw [hfind] at h
        cases v with
        | Table t =>
          cases ps with
          | nil =>
            simp only [Bool.false_eq_true, if_false, Option.some.injEq] at h
            subst h
            rw [hfind]
            simp
          | cons p2 ps2 =>
            simp only [Option.map_eq_some'] at h
            obtain ⟨t', hrec, hht⟩ := h
            subst hht
            rw [mfind_minsert_self]
            simp [ih t t' hrec]
        | TableArray ta =>
          cases ps with
          | nil => simp at h
          | cons p2 ps2 =>
            cases hlast : ta.getLast? with
            | none => simp [hlast] at h
            | some lv =>
              have hne : ta ≠ [] := by
                intro hc; subst hc; simp [List.getLast?] at hlast
              cases lv with
              | Table hmap =>
                simp only [hlast, Option.map_eq_some'] at h
                obtain ⟨hm', hrec, hht⟩ := h
                subst hht
                rw [mfind_minsert_self]
                simp [getLast?_set_last ta (.Table hm') hne, ih hmap hm' hrec]
              | NoValue => simp [hlast] at h
              | Boolean b => simp [hlast] at h
              | Unsigned n => simp [hlast] at h
              | Signed n => simp [hlast] at h
              | Float q => simp [hlast] at h
              | String s => simp [hlast] at h
              | Datetime y mo d hh mi se => simp [hlast] at h
              | Array l => simp [hlast] at h
              | TableArray l => simp [hlast] at h
        | NoValue => simp at h
        | Boolean b => simp at h
        | Unsigned n => simp at h
        | Signed n => simp at h
        | Float q => simp at h
        | String s => simp at h
        | Datetime y mo d hh mi se => simp at h
        | Array l => simp at h

/-- After an array-of-tables (`is_array = true`) section has been opened,
re-opening the same path with a single-bracket header fails. -/
theorem rct_true_then_false (path : List (List Char)) :
    ∀ (ht ht' : TMap), recursive_create_tree path ht true = some ht' →
      recursive_create_tree path ht' false = none := by
  induction path with
  | nil => intro ht ht' h; simp [recursive_create_tree] at h
  | cons p ps ih =>
    intro ht ht' h
    simp only [recursive_create_tree] at h ⊢
    by_cases hp : p = []
    · simp [hp] at h
    · rw [if_neg hp] at h ⊢
      cases hfind : mfind ht p with
      | none =>
        rw [hfind] at h
        cases ps with
        | nil =>
          simp only [if_true, Option.some.injEq] at h
          subst h
          rw [mfind_minsert_self]
          simp
        | cons p2 ps2 =>
          simp only [Option.map_eq_some'] at h
          obtain ⟨sub, hrec, hht⟩ := h
          subst hht
          rw [mfind_minsert_self]
          simp [ih [] sub hrec]
      | some v =>
        rw [hfind] at h
        cases v with
        | Table t =>
          cases ps with
          | nil => simp at h
          | cons p2 ps2 =>
            simp only [Option.map_eq_some'] at h
            obtain ⟨t', hrec, hht⟩ := h
            subst hht
            rw [mfind_minsert_self]
            simp [ih t t' hrec]
        | TableArray ta =>
          cases ps with
          | nil =>
            simp only [if_true, Option.some.injEq] at h
            subst h
            rw [mfind_minsert_self]
            simp
          | cons p2 ps2 =>
            cases hlast : ta.getLast? with
            | none => simp [hlast] at h
            | some lv =>
              have hne : ta ≠ [] := by
                intro hc; subst hc; simp [List.getLast?] at hlast
              cases lv with
              | Table hmap =>
                simp only [hlast, Option.map_eq_some'] at h
                obtain ⟨hm', hrec, hht⟩ := h
                subst hht
                rw [mfind_minsert_self]
                simp [getLast?_set_last ta (.Table hm') hne, ih hmap hm' hrec]
              | NoValue => simp [hlast] at h
              | Boolean b => simp [hlast] at h
              | Unsigned n => simp [hlast] at h
              | Signed n => simp [hlast] at h
              | Float q => simp [hlast] at h
              | String s => simp [hlast] at h
              | Datetime y mo d hh mi se => simp [hlast] at h
              | Array l => simp [hlast] at h
              | TableArray l => simp [hlast] at h
        | NoValue => simp at h
        | Boolean b => simp at h
        | Unsigned n => simp at h
        | Signed n => simp at h
        | Float q => simp at h
        | String s => simp at h
        | Datetime y mo d hh mi se => simp at h
        | Array l => simp at h

/-- C9.  Opening the same bare (single-bracket) section header a second
time with `is_array = false` succeeds, leaves the tree unchanged, and
subsequent pairs accumulate into the one existing `Table` (witnessed on
`[a] x=1 [a] y=2`); re-opening a path with the opposite array-ness of what
exists there (single-bracket over an existing `TableArray`, or
double-bracket over an existing plain `Table`) makes `open_section` fail
and aborts the parse. -/
theorem C9_section_reopen :
    (∀ (path : List (List Char)) (ht ht' : TMap),
      recursive_create_tree path ht false = some ht' →
      recursive_create_tree path ht' false = some ht')
    ∧ (∀ (path : List (List Char)) (ht ht' : TMap),
      recursive_create_tree path ht false = some ht' →
      recursive_create_tree path ht' true = none)
    ∧ (∀ (path : List (List Char)) (ht ht' : TMap),
      recursive_create_tree path ht true = some ht' →
      recursive_create_tree path ht' false = none)
    ∧ ((parse_from_buffer 8
        ['[','a',']','\n','x','=','1','\n','[','a',']','\n','y','=','2','\n']).map
        (fun p => (p.1.lookup ['a','.','x'], p.1.lookup ['a','.','y']))
      = some (some (.Unsigned 1), some (.Unsigned 2)))
    ∧ ((parse_from_buffer 8 ['[','a',']','\n','[','[','a',']',']']).map Prod.fst
      = some .NoValue)
    ∧ ((parse_from_buffer 8 ['[','[','a',']',']','\n','[','a',']']).map Prod.fst
      = some .NoValue) :=
  ⟨rct_reopen, rct_false_then_true, rct_true_then_false, rfl, rfl, rfl⟩

theorem C9_witness :
    (recursive_create_tree [['a']] [] false = some [(['a'], .Table [])])
    ∧ (recursive_create_tree [['a']] [(['a'], .Table [])] false = some [(['a'], .Table [])])
    ∧ (recursive_create_tree [['a']] [(['a'], .Table [])] true = none)
    ∧ (recursive_create_tree [['a']] [] true = some [(['a'], .TableArray [.Table []])])
    ∧ (recursive_create_tree [['a']] [(['a'], .TableArray [.Table []])] false = none) :=
  ⟨rfl,
    C9_section_reopen.1 [['a']] [] [(['a'], .Table [])] rfl,
    C9_section_reopen.2.1 [['a']] [] [(['a'], .Table [])] rfl,
    rfl,
    C9_section_reopen.2.2.1 [['a']] [] [(['a'], .TableArray [.Table []])] rfl⟩

/-- The walk of `insert_value` matches `resolve`: with the owning table of
the open path in hand, insertion fails exactly on a duplicate key, and a
successful insertion appends the pair to that table. -/
theorem insert_value_resolve (path : List (List Char)) :
    ∀ (ht t : TMap) (addr : List PathElement) (key : List Char) (val : Value),
      resolve ht path = some (addr, t) →
      ((mfind t key ≠ none → insert_value path key ht val = none)
       ∧ (mfind t key = none → ∃ ht', insert_value path key ht val = some ht' ∧
           resolve ht' path = some (addr, t ++ [(key, val)]))) := by
  induction path with
  | nil =>
    intro ht t addr key val hres
    simp only [resolve, Option.some.injEq, Prod.mk.injEq] at hres
    obtain ⟨haddr, hteq⟩ := hres
    subst hteq
    constructor
    · intro hdup
      cases hfind : mfind ht key with
      | none => exact absurd hfind hdup
      | some w => simp [insert_value, hfind]
    · intro habs
      refine ⟨ht ++ [(key, val)], ?_, ?_⟩
      · simp [insert_value, habs]
      · simp [resolve, haddr]
  | cons p ps ih =>
    intro ht t addr key val hres
    simp only [resolve] at hres
    cases hfind : mfind ht p with
    | none => rw [hfind] at hres; cases hres
    | some v =>
      rw [hfind] at hres
      cases v with
      | Table t0 =>
        simp only [Option.map_eq_some'] at hres
        obtain ⟨⟨a', t''⟩, hres0, heq⟩ := hres
        simp only [Prod.mk.injEq] at heq
        obtain ⟨haddr, hteq⟩ := heq
        subst hteq
        obtain ⟨ihdup, ihabs⟩ := ih t0 t'' a' key val hres0
        constructor
        · intro hdup
          simp only [insert_value, hfind, ihdup hdup, Option.map_none']
        · intro habs
          obtain ⟨t0', hins, hres'⟩ := ihabs habs
          refine ⟨minsert ht p (.Table t0'), ?_, ?_⟩
          · simp only [insert_value, hfind, hins, Option.map_some']
          · simp only [resolve, mfind_minsert_self, hres', Option.map_some', ← haddr]
      | TableArray ta =>
        cases hlast : ta.getLast? with
        | none => simp [hlast] at hres
        | some lv =>
          have hne : ta ≠ [] := by
            intro hc; subst hc; simp [List.getLast?] at hlast
          cases lv with
          | Table hmap =>
            simp only [hlast, Option.map_eq_some'] at hres
            obtain ⟨⟨a', t''⟩, hres0, heq⟩ := hres
            simp only [Prod.mk.injEq] at heq
            obtain ⟨haddr, hteq⟩ := heq
            subst hteq
            obtain ⟨ihdup, ihabs⟩ := ih hmap t'' a' key val hres0
            constructor
            · intro hdup
              simp only [insert_value, hfind, hlast, ihdup hdup, Option.map_none']
            · intro habs
              obtain ⟨hm', hins, hres'⟩ := ihabs habs
              refine ⟨minsert ht p (.TableArray (ta.set (ta.length - 1) (.Table hm'))), ?_, ?_⟩
              · simp only [insert_value, hfind, hlast, hins, Option.map_some']
              · simp only [resolve, mfind_minsert_self,
                  getLast?_set_last ta (.Table hm') hne, hres', Option.map_some',
                  List.length_set, ← haddr]
          | NoValue => simp [hlast] at hres
          | Boolean b => simp [hlast] at hres
          | Unsigned n => simp [hlast] at hres
          | Signed n => simp [hlast] at hres
          | Float q => simp [hlast] at hres
          | String s => simp [hlast] at hres
          | Datetime y mo d hh mi se => simp [hlast] at hres
          | Array l => simp [hlast] at hres
          | TableArray l => simp [hlast] at hres
      | NoValue => simp at hres
      | Boolean b => simp at hres
      | Unsigned n => simp at hres
      | Signed n => simp at hres
      | Float q => simp at hres
      | String s => simp at hres
      | Datetime y mo d hh mi se => simp at hres
      | Array l => simp at hres

/-- C8.  `set_pair` inserts the key/value into the `Table` owned by the
currently open path (the table `resolve` reaches by descending `Table`s by
key and `TableArray`s through their last element), and the insertion fails
if and only if the key already exists in that exact table; a successful
insertion appends the binding to that table, and the duplicate-key failure
aborts the whole parse — in particular `a=1\na=1` fails at the second
pair. -/
theorem C8_set_pair_duplicate_key :
    (∀ (path : List (List Char)) (ht t : TMap) (addr : List PathElement)
        (key : List Char) (val : Value),
      resolve ht path = some (addr, t) →
      ((insert_value path key ht val = none ↔ mfind t key ≠ none)
       ∧ (mfind t key = none → ∃ ht', insert_value path key ht val = some ht' ∧
           resolve ht' path = some (addr, t ++ [(key, val)]))))
    ∧ ((parse_from_buffer 8 ['a', '=', '1', '\n', 'a', '=', '1']).map Prod.fst
      = some .NoValue) := by
  refine ⟨?_, rfl⟩
  intro path ht t addr key val hres
  obtain ⟨hdup, habs⟩ := insert_value_resolve path ht t addr key val hres
  refine ⟨⟨?_, hdup⟩, habs⟩
  intro hnone
  cases hfind : mfind t key with
  | none =>
    obtain ⟨ht', hins, _⟩ := habs hfind
    rw [hins] at hnone
    cases hnone
  | some w => simp

theorem C8_witness :
    (resolve [(['a'], .Unsigned 1)] [] = some ([], [(['a'], .Unsigned 1)]))
    ∧ (insert_value [] ['a'] [(['a'], .Unsigned 1)] (.Unsigned 1) = none ↔
        mfind [(['a'], .Unsigned 1)] ['a'] ≠ none) :=
  ⟨rfl, (C8_set_pair_duplicate_key.1 [] [(['a'], .Unsigned 1)] [(['a'], .Unsigned 1)]
    [] ['a'] (.Unsigned 1) rfl).1⟩

/-- The datetime shape as the spec words it (written from the spec, for
comparison with the parser): four digits, `-`, two digits, `-`, two
digits, `T`, two digits, `:`, two digits, `:`, two digits, `Z`, with
month ∈ [1,12], day ∈ [1,31], hour ≤ 24, minute ≤ 60, second ≤ 60.
Returns the six fields and the input remaining after the `Z`. -/
def datetimeSpec : List Char → Option ((Nat × Nat × Nat × Nat × Nat × Nat) × List Char)
  | y1 :: y2 :: y3 :: y4 :: '-' :: m1 :: m2 :: '-' :: d1 :: d2 :: 'T' ::
      h1 :: h2 :: ':' :: i1 :: i2 :: ':' :: s1 :: s2 :: 'Z' :: rest =>
    if [y1, y2, y3, y4, m1, m2, d1, d2, h1, h2, i1, i2, s1, s2].all isDigitCh then
      if 1 ≤ dval m1 * 10 + dval m2 ∧ dval m1 * 10 + dval m2 ≤ 12 ∧
          1 ≤ dval d1 * 10 + dval d2 ∧ dval d1 * 10 + dval d2 ≤ 31 ∧
          dval h1 * 10 + dval h2 ≤ 24 ∧ dval i1 * 10 + dval i2 ≤ 60 ∧
          dval s1 * 10 + dval s2 ≤ 60 then
        some ((((dval y1 * 10 + dval y2) * 10 + dval y3) * 10 + dval y4,
          dval m1 * 10 + dval m2, dval d1 * 10 + dval d2, dval h1 * 10 + dval h2,
          dval i1 * 10 + dval i2, dval s1 * 10 + dval s2), rest)
      else none
    else none
  | _ => none

theorem datetimeSpec_run (y1 y2 y3 y4 m1 m2 d1 d2 h1 h2 i1 i2 s1 s2 : Char)
    (rest : List Char)
    (hdig : [y1, y2, y3, y4, m1, m2, d1, d2, h1, h2, i1, i2, s1, s2].all isDigitCh = true) :
    datetimeSpec (y1 :: y2 :: y3 :: y4 :: '-' :: m1 :: m2 :: '-' :: d1 :: d2 :: 'T' ::
        h1 :: h2 :: ':' :: i1 :: i2 :: ':' :: s1 :: s2 :: 'Z' :: rest)
      = (if 1 ≤ dval m1 * 10 + dval m2 ∧ dval m1 * 10 + dval m2 ≤ 12 ∧
            1 ≤ dval d1 * 10 + dval d2 ∧ dval d1 * 10 + dval d2 ≤ 31 ∧
            dval h1 * 10 + dval h2 ≤ 24 ∧ dval i1 * 10 + dval i2 ≤ 60 ∧
            dval s1 * 10 + dval s2 ≤ 60 then
          some ((((dval y1 * 10 + dval y2) * 10 + dval y3) * 10 + dval y4,
            dval m1 * 10 + dval m2, dval d1 * 10 + dval d2, dval h1 * 10 + dval h2,
            dval i1 * 10 + dval i2, dval s1 * 10 + dval s2), rest)
        else none) := by
  simp only [datetimeSpec, if_pos hdig]

theorem digitsVal64_four (y1 y2 y3 y4 : Char)
    (h1 : isDigitCh y1 = true) (h2 : isDigitCh y2 = true)
    (h3 : isDigitCh y3 = true) (h4 : isDigitCh y4 = true) :
    digitsVal64 [y1, y2, y3, y4]
      = ((dval y1 * 10 + dval y2) * 10 + dval y3) * 10 + dval y4 := by
  have b1 := dval_lt_ten y1 h1
  have b2 := dval_lt_ten y2 h2
  have b3 := dval_lt_ten y3 h3
  have b4 := dval_lt_ten y4 h4
  have hp : (2 : Nat) ^ 64 = 18446744073709551616 := by norm_num
  simp only [digitsVal64, List.foldl_cons, List.foldl_nil]
  omega

theorem parse_float_rest_ne_datetime (n : Nat) (mul : ℚ) (st : PState)
    (y mo d h mi se : Nat) (out : PState) :
    parse_float_rest n mul st ≠ (.Datetime y mo d h mi se, out) := by
  cases st with
  | mk input line =>
    cases input with
    | nil => simp [parse_float_rest]
    | cons c r =>
      simp only [parse_float_rest]
      by_cases hc : isDigitCh c = true
      · rw [if_pos hc]
        intro heq
        simp only [Prod.mk.injEq] at heq
        exact Value.noConfusion heq.1
      · rw [if_neg hc]
        intro heq
        simp only [Prod.mk.injEq] at heq
        exact Value.noConfusion heq.1
/-- Running the strict datetime tail on input of exactly the expected
shape: it validates the ranges and either produces the `Datetime` or
rejects the whole value. -/
theorem parse_datetime_run (n : Nat) (m1 m2 d1 d2 h1 h2 i1 i2 s1 s2 : Char)
    (rest : List Char) (line : Nat)
    (hd : [m1, m2, d1, d2, h1, h2, i1, i2, s1, s2].all isDigitCh = true) :
    parse_datetime n ⟨m1 :: m2 :: '-' :: d1 :: d2 :: 'T' :: h1 :: h2 :: ':' ::
        i1 :: i2 :: ':' :: s1 :: s2 :: 'Z' :: rest, line⟩
      = (if dval m1 * 10 + dval m2 > 0 ∧ dval m1 * 10 + dval m2 ≤ 12 ∧
            dval d1 * 10 + dval d2 > 0 ∧ dval d1 * 10 + dval d2 ≤ 31 ∧
            dval h1 * 10 + dval h2 ≤ 24 ∧ dval i1 * 10 + dval i2 ≤ 60 ∧
            dval s1 * 10 + dval s2 ≤ 60 then
          (.Datetime (n % 2 ^ 16) (dval m1 * 10 + dval m2) (dval d1 * 10 + dval d2)
            (dval h1 * 10 + dval h2) (dval i1 * 10 + dval i2) (dval s1 * 10 + dval s2),
            ⟨rest, line⟩)
        else (.NoValue, ⟨rest, line⟩)) := by
  simp only [List.all_cons, List.all_nil, Bool.and_eq_true, and_true] at hd
  obtain ⟨hm1, hm2, hd1, hd2, hh1, hh2, hi1, hi2, hs1, hs2⟩ := hd
  have e1 := read_two_digits_run m1 m2
    ('-' :: d1 :: d2 :: 'T' :: h1 :: h2 :: ':' :: i1 :: i2 :: ':' :: s1 :: s2 :: 'Z' :: rest)
    line hm1 hm2
  have e2 := read_two_digits_run d1 d2
    ('T' :: h1 :: h2 :: ':' :: i1 :: i2 :: ':' :: s1 :: s2 :: 'Z' :: rest) line hd1 hd2
  have e3 := read_two_digits_run h1 h2
    (':' :: i1 :: i2 :: ':' :: s1 :: s2 :: 'Z' :: rest) line hh1 hh2
  have e4 := read_two_digits_run i1 i2 (':' :: s1 :: s2 :: 'Z' :: rest) line hi1 hi2
  have e5 := read_two_digits_run s1 s2 ('Z' :: rest) line hs1 hs2
  simp only [parse_datetime, e1, e2, e3, e4, e5, advance_if, if_pos]

/-- Inversion of the strict datetime tail: a `Datetime` result forces the
input to have exactly the `MM-DDThh:mm:ssZ` shape with in-range fields. -/
theorem parse_datetime_some_inv (n : Nat) (st out : PState) (y mo d h mi se : Nat)
    (hpd : parse_datetime n st = (.Datetime y mo d h mi se, out)) :
    ∃ m1 m2 d1 d2 h1 h2 i1 i2 s1 s2,
      st.input = m1 :: m2 :: '-' :: d1 :: d2 :: 'T' :: h1 :: h2 :: ':' ::
        i1 :: i2 :: ':' :: s1 :: s2 :: 'Z' :: out.input ∧
      [m1, m2, d1, d2, h1, h2, i1, i2, s1, s2].all isDigitCh = true ∧
      out.line = st.line ∧
      y = n % 2 ^ 16 ∧ mo = dval m1 * 10 + dval m2 ∧ d = dval d1 * 10 + dval d2 ∧
      h = dval h1 * 10 + dval h2 ∧ mi = dval i1 * 10 + dval i2 ∧
      se = dval s1 * 10 + dval s2 ∧
      (mo > 0 ∧ mo ≤ 12 ∧ d > 0 ∧ d ≤ 31 ∧ h ≤ 24 ∧ mi ≤ 60 ∧ se ≤ 60) := by
  simp only [parse_datetime] at hpd
  cases hm : read_two_digits st with
  | mk month st4 =>
  cases month with
  | none => simp [hm] at hpd
  | some mov =>
  cases ha1 : advance_if '-' st4 with
  | mk ok1 st5 =>
  cases ok1 with
  | false => simp [hm, ha1] at hpd
  | true =>
  cases hdd : read_two_digits st5 with
  | mk day st6 =>
  cases day with
  | none => simp [hm, ha1, hdd] at hpd
  | some dv =>
  cases ha2 : advance_if 'T' st6 with
  | mk ok2 st7 =>
  cases ok2 with
  | false => simp [hm, ha1, hdd, ha2] at hpd
  | true =>
  cases hh : read_two_digits st7 with
  | mk hour st8 =>
  cases hour with
  | none => simp [hm, ha1, hdd, ha2, hh] at hpd
  | some hv =>
  cases ha3 : advance_if ':' st8 with
  | mk ok3 st9 =>
  cases ok3 with
  | false => simp [hm, ha1, hdd, ha2, hh, ha3] at hpd
  | true =>
  cases hmi : read_two_digits st9 with
  | mk mins st10 =>
  cases mins with
  | none => simp [hm, ha1, hdd, ha2, hh, ha3, hmi] at hpd
  | some miv =>
  cases ha4 : advance_if ':' st10 with
  | mk ok4 st11 =>
  cases ok4 with
  | false => simp [hm, ha1, hdd, ha2, hh, ha3, hmi, ha4] at hpd
  | true =>
  cases hs : read_two_digits st11 with
  | mk sec st12 =>
  cases sec with
  | none => simp [hm, ha1, hdd, ha2, hh, ha3, hmi, ha4, hs] at hpd
  | some sv =>
  cases ha5 : advance_if 'Z' st12 with
  | mk ok5 st13 =>
  cases ok5 with
  | false => simp [hm, ha1, hdd, ha2, hh, ha3, hmi, ha4, hs, ha5] at hpd
  | true =>
  simp only [hm, ha1, hdd, ha2, hh, ha3, hmi, ha4, hs, ha5] at hpd
  by_cases hb : mov > 0 ∧ mov ≤ 12 ∧ dv > 0 ∧ dv ≤ 31 ∧ hv ≤ 24 ∧ miv ≤ 60 ∧ sv ≤ 60
  · rw [if_pos hb] at hpd
    simp only [Prod.mk.injEq, Value.Datetime.injEq] at hpd
    obtain ⟨⟨hy, hmo, hdv, hhv, hmiv, hsv⟩, hout⟩ := hpd
    obtain ⟨m1, m2, hin1, hgm1, hgm2, hveq1, hl1⟩ := read_two_digits_some_inv st st4 mov hm
    obtain ⟨hin2, hl2⟩ := advance_if_true_inv '-' st4 st5 ha1
    obtain ⟨d1, d2, hin3, hgd1, hgd2, hveq2, hl3⟩ := read_two_digits_some_inv st5 st6 dv hdd
    obtain ⟨hin4, hl4⟩ := advance_if_true_inv 'T' st6 st7 ha2
    obtain ⟨h1, h2, hin5, hgh1, hgh2, hveq3, hl5⟩ := read_two_digits_some_inv st7 st8 hv hh
    obtain ⟨hin6, hl6⟩ := advance_if_true_inv ':' st8 st9 ha3
    obtain ⟨i1, i2, hin7, hgi1, hgi2, hveq4, hl7⟩ := read_two_digits_some_inv st9 st10 miv hmi
    obtain ⟨hin8, hl8⟩ := advance_if_true_inv ':' st10 st11 ha4
    obtain ⟨s1, s2, hin9, hgs1, hgs2, hveq5, hl9⟩ := read_two_digits_some_inv st11 st12 sv hs
    obtain ⟨hin10, hl10⟩ := advance_if_true_inv 'Z' st12 st13 ha5
    subst hout
    refine ⟨m1, m2, d1, d2, h1, h2, i1, i2, s1, s2, ?_, ?_, ?_, ?_, ?_, ?_, ?_, ?_, ?_, ?_⟩
    · rw [hin1, hin2, hin3, hin4, hin5, hin6, hin7, hin8, hin9, hin10]
    · simp [hgm1, hgm2, hgd1, hgd2, hgh1, hgh2, hgi1, hgi2, hgs1, hgs2]
    · rw [hl10, hl9, hl8, hl7, hl6, hl5, hl4, hl3, hl2, hl1]
    · exact hy.symm
    · rw [← hmo, hveq1]
    · rw [← hdv, hveq2]
    · rw [← hhv, hveq3]
    · rw [← hmiv, hveq4]
    · rw [← hsv, hveq5]
    · rw [← hmo, ← hdv, ← hhv, ← hmiv, ← hsv]
      exact hb
  · rw [if_neg hb] at hpd
    simp at hpd

theorem datetimeSpec_some_inv (s : List Char) (y mo d h mi se : Nat) (rest : List Char)
    (hds : datetimeSpec s = some ((y, mo, d, h, mi, se), rest)) :
    ∃ y1 y2 y3 y4 m1 m2 d1 d2 h1 h2 i1 i2 s1 s2,
      s = y1 :: y2 :: y3 :: y4 :: '-' :: m1 :: m2 :: '-' :: d1 :: d2 :: 'T' ::
        h1 :: h2 :: ':' :: i1 :: i2 :: ':' :: s1 :: s2 :: 'Z' :: rest ∧
      [y1, y2, y3, y4, m1, m2, d1, d2, h1, h2, i1, i2, s1, s2].all isDigitCh = true ∧
      y = ((dval y1 * 10 + dval y2) * 10 + dval y3) * 10 + dval y4 ∧
      mo = dval m1 * 10 + dval m2 ∧ d = dval d1 * 10 + dval d2 ∧
      h = dval h1 * 10 + dval h2 ∧ mi = dval i1 * 10 + dval i2 ∧
      se = dval s1 * 10 + dval s2 ∧
      (1 ≤ mo ∧ mo ≤ 12 ∧ 1 ≤ d ∧ d ≤ 31 ∧ h ≤ 24 ∧ mi ≤ 60 ∧ se ≤ 60) := by
  unfold datetimeSpec at hds
  split at hds
  · next y1 y2 y3 y4 m1 m2 d1 d2 h1 h2 i1 i2 s1 s2 rest' =>
    split at hds
    · next hdig =>
      split at hds
      · next hb =>
        simp only [Option.some.injEq, Prod.mk.injEq] at hds
        obtain ⟨⟨hy, hmo, hdv, hhv, hmiv, hsv⟩, hrest⟩ := hds
        subst hrest
        exact ⟨y1, y2, y3, y4, m1, m2, d1, d2, h1, h2, i1, i2, s1, s2, rfl, hdig,
          hy.symm, hmo.symm, hdv.symm, hhv.symm, hmiv.symm, hsv.symm,
          by rw [← hmo, ← hdv, ← hhv, ← hmiv, ← hsv]; exact hb⟩
      · cases hds
    · cases hds
  · cases hds

/-- C6.  A datetime value (an input beginning with a decimal digit) parses
to a `Datetime` exactly when the input has the shape four digits, `-`, two
digits, `-`, two digits, `T`, two digits, `:`, two digits, `:`, two
digits, `Z` with month ∈ [1,12], day ∈ [1,31], hour ≤ 24, minute ≤ 60,
second ≤ 60 — and the fields are the decimal values of those digit groups;
an input of that shape whose fields violate the bounds makes the whole
value fail with no fallback; and parsing `d = 2014-01-02T03:04:05Z` yields
`Datetime(2014,1,2,3,4,5)` at key `d`. -/
theorem C6_datetime_iff :
    (∀ (fuel : Nat) (c : Char) (s0 : List Char) (line : Nat)
        (y mo d h mi se : Nat) (out : PState),
      isDigitCh c = true →
      (pv (fuel + 1) .value ⟨c :: s0, line⟩ [] = some (.Datetime y mo d h mi se, out) ↔
        ∃ rest, datetimeSpec (c :: s0) = some ((y, mo, d, h, mi, se), rest) ∧
          out = ⟨rest, line⟩))
    ∧ (∀ (fuel : Nat) (line : Nat) (y1 y2 y3 y4 m1 m2 d1 d2 h1 h2 i1 i2 s1 s2 : Char)
        (rest : List Char),
      [y1, y2, y3, y4, m1, m2, d1, d2, h1, h2, i1, i2, s1, s2].all isDigitCh = true →
      ¬(dval m1 * 10 + dval m2 > 0 ∧ dval m1 * 10 + dval m2 ≤ 12 ∧
        dval d1 * 10 + dval d2 > 0 ∧ dval d1 * 10 + dval d2 ≤ 31 ∧
        dval h1 * 10 + dval h2 ≤ 24 ∧ dval i1 * 10 + dval i2 ≤ 60 ∧
        dval s1 * 10 + dval s2 ≤ 60) →
      pv (fuel + 1) .value ⟨y1 :: y2 :: y3 :: y4 :: '-' :: m1 :: m2 :: '-' :: d1 :: d2 ::
          'T' :: h1 :: h2 :: ':' :: i1 :: i2 :: ':' :: s1 :: s2 :: 'Z' :: rest, line⟩ []
        = some (.NoValue, ⟨rest, line⟩))
    ∧ ((parse_from_buffer 8 ['d', ' ', '=', ' ', '2', '0', '1', '4', '-', '0', '1', '-',
        '0', '2', 'T', '0', '3', ':', '0', '4', ':', '0', '5', 'Z']).map
        (fun p => p.1.lookup ['d']) = some (some (.Datetime 2014 1 2 3 4 5))) := by
  have main : ∀ (fuel : Nat) (y1 y2 y3 y4 m1 m2 d1 d2 h1 h2 i1 i2 s1 s2 : Char)
      (rest : List Char) (line : Nat),
      [y1, y2, y3, y4, m1, m2, d1, d2, h1, h2, i1, i2, s1, s2].all isDigitCh = true →
      pv (fuel + 1) .value ⟨y1 :: y2 :: y3 :: y4 :: '-' :: m1 :: m2 :: '-' :: d1 :: d2 ::
          'T' :: h1 :: h2 :: ':' :: i1 :: i2 :: ':' :: s1 :: s2 :: 'Z' :: rest, line⟩ []
        = some
          (if dval m1 * 10 + dval m2 > 0 ∧ dval m1 * 10 + dval m2 ≤ 12 ∧
              dval d1 * 10 + dval d2 > 0 ∧ dval d1 * 10 + dval d2 ≤ 31 ∧
              dval h1 * 10 + dval h2 ≤ 24 ∧ dval i1 * 10 + dval i2 ≤ 60 ∧
              dval s1 * 10 + dval s2 ≤ 60 then
            ((.Datetime (digitsVal64 [y1, y2, y3, y4] % 2 ^ 16) (dval m1 * 10 + dval m2)
              (dval d1 * 10 + dval d2) (dval h1 * 10 + dval h2) (dval i1 * 10 + dval i2)
              (dval s1 * 10 + dval s2), ⟨rest, line⟩) : Value × PState)
          else (.NoValue, ⟨rest, line⟩)) := by
    intro fuel y1 y2 y3 y4 m1 m2 d1 d2 h1 h2 i1 i2 s1 s2 rest line hall
    simp only [List.all_cons, List.all_nil, Bool.and_eq_true, and_true] at hall
    obtain ⟨g1, g2, g3, g4, gm1, gm2, gd1, gd2, gh1, gh2, gi1, gi2, gs1, gs2⟩ := hall
    rw [pv_digit_branch fuel y1 _ line g1]
    have hrd := read_digits_run y1 [y2, y3, y4]
      ('-' :: m1 :: m2 :: '-' :: d1 :: d2 :: 'T' :: h1 :: h2 :: ':' :: i1 :: i2 :: ':' ::
        s1 :: s2 :: 'Z' :: rest) line
      (by simp [g1, g2, g3, g4])
      (by intro c' h'; simp only [List.head?_cons, Option.some.injEq] at h'; subst h'; decide)
    simp only [parse_number]
    rw [show (⟨y1 :: y2 :: y3 :: y4 :: '-' :: m1 :: m2 :: '-' :: d1 :: d2 :: 'T' :: h1 ::
        h2 :: ':' :: i1 :: i2 :: ':' :: s1 :: s2 :: 'Z' :: rest, line⟩ : PState)
        = ⟨(y1 :: [y2, y3, y4]) ++ '-' :: m1 :: m2 :: '-' :: d1 :: d2 :: 'T' :: h1 :: h2 ::
          ':' :: i1 :: i2 :: ':' :: s1 :: s2 :: 'Z' :: rest, line⟩ from rfl, hrd]
    exact congrArg some (parse_datetime_run (digitsVal64 [y1, y2, y3, y4]) m1 m2 d1 d2 h1
      h2 i1 i2 s1 s2 rest line
      (by simp [gm1, gm2, gd1, gd2, gh1, gh2, gi1, gi2, gs1, gs2]))
  refine ⟨?_, ?_, rfl⟩
  · intro fuel c s0 line y mo d h mi se out hdig
    constructor
    · intro hpv
      rw [pv_digit_branch fuel c s0 line hdig] at hpv
      have hpn : parse_number ⟨c :: s0, line⟩ = (.Datetime y mo d h mi se, out) :=
        Option.some.inj hpv
      simp only [parse_number] at hpn
      cases hrd : read_digits ⟨c :: s0, line⟩ with
      | mk onum p2 =>
        cases p2 with
        | mk nd st2 =>
          cases onum with
          | none => simp [hrd] at hpn
          | some n =>
            simp only [hrd] at hpn
            obtain ⟨c', ds, hin, hall, hnd, hn, hline2, hndig⟩ :=
              read_digits_some_inv ⟨c :: s0, line⟩ st2 n nd hrd
            split at hpn
            · next r2 heq =>
              exact absurd hpn (parse_float_rest_ne_datetime n 1 _ y mo d h mi se out)
            · next r2 heq =>
              by_cases hne4 : nd ≠ 4
              · rw [if_pos hne4] at hpn
                simp at hpn
              · rw [if_neg hne4] at hpn
                push_neg at hne4
                obtain ⟨m1, m2, d1, d2, h1, h2, i1, i2, s1, s2, hin2, hdig2, hlout,
                  hy, hmo, hdv, hhv, hmiv, hsv, hb⟩ :=
                  parse_datetime_some_inv n ⟨r2, st2.line⟩ out y mo d h mi se hpn
                simp only at hin2
                subst hin2
                rw [hnd] at hne4
                have hds3 : ds.length = 3 := by
                  simp only [List.length_cons] at hne4; omega
                obtain ⟨y2, y3, y4, rfl⟩ := List.length_eq_three.mp hds3
                rw [List.cons_append] at hin
                obtain ⟨hc, hs0⟩ : c = c' ∧ s0 = [y2, y3, y4] ++ st2.input := by
                  simpa using hin
                subst hc
                simp only [List.cons_append, List.nil_append] at hs0
                have hall4 := hall
                simp only [List.all_cons, Bool.and_eq_true, List.all_nil, and_true] at hall4
                have hval := digitsVal64_four c y2 y3 y4 hall4.1 hall4.2.1 hall4.2.2.1
                  hall4.2.2.2
                refine ⟨out.input, ?_, ?_⟩
                · rw [hs0, heq]
                  rw [datetimeSpec_run c y2 y3 y4 m1 m2 d1 d2 h1 h2 i1 i2 s1 s2 out.input
                    (by
                      simp only [List.all_cons, Bool.and_eq_true, List.all_nil, and_true]
                      simp only [List.all_cons, Bool.and_eq_true, List.all_nil,
                        and_true] at hdig2
                      exact ⟨hall4.1, hall4.2.1, hall4.2.2.1, hall4.2.2.2, hdig2⟩)]
                  rw [if_pos (by refine ⟨?_, ?_, ?_, ?_, ?_, ?_, ?_⟩ <;> omega)]
                  subst hmo; subst hdv; subst hhv; subst hmiv; subst hsv
                  subst hy; subst hn
                  have hb1 := dval_lt_ten c hall4.1
                  have hb2 := dval_lt_ten y2 hall4.2.1
                  have hb3 := dval_lt_ten y3 hall4.2.2.1
                  have hb4 := dval_lt_ten y4 hall4.2.2.2
                  have hp16 : (2 : Nat) ^ 16 = 65536 := by norm_num
                  rw [hval]
                  rw [Nat.mod_eq_of_lt (by omega)]
                · cases out with
                  | mk oin oline =>
                    simp only [PState.mk.injEq, true_and]
                    simp only at hlout
                    rw [hlout]
                    rw [hline2]
            · simp at hpn
    · rintro ⟨rest, hspec, rfl⟩
      obtain ⟨y1, y2, y3, y4, m1, m2, d1, d2, h1, h2, i1, i2, s1, s2, hshape, hdig2,
        hy, hmo, hdv, hhv, hmiv, hsv, hb⟩ :=
        datetimeSpec_some_inv (c :: s0) y mo d h mi se rest hspec
      obtain ⟨hc, hs0⟩ : c = y1 ∧ s0 = y2 :: y3 :: y4 :: '-' :: m1 :: m2 :: '-' :: d1 ::
          d2 :: 'T' :: h1 :: h2 :: ':' :: i1 :: i2 :: ':' :: s1 :: s2 :: 'Z' :: rest := by
        simpa using hshape
      subst hc
      subst hs0
      rw [main fuel c y2 y3 y4 m1 m2 d1 d2 h1 h2 i1 i2 s1 s2 rest line hdig2]
      rw [if_pos (by refine ⟨?_, ?_, ?_, ?_, ?_, ?_, ?_⟩ <;> omega)]
      subst hmo; subst hdv; subst hhv; subst hmiv; subst hsv; subst hy
      have hall4 := hdig2
      simp only [List.all_cons, Bool.and_eq_true, List.all_nil, and_true] at hall4
      have hval := digitsVal64_four c y2 y3 y4 hall4.1 hall4.2.1 hall4.2.2.1 hall4.2.2.2.1
      have hb1 := dval_lt_ten c hall4.1
      have hb2 := dval_lt_ten y2 hall4.2.1
      have hb3 := dval_lt_ten y3 hall4.2.2.1
      have hb4 := dval_lt_ten y4 hall4.2.2.2.1
      have hp16 : (2 : Nat) ^ 16 = 65536 := by norm_num
      rw [hval]
      rw [Nat.mod_eq_of_lt (by omega)]
  · intro fuel line y1 y2 y3 y4 m1 m2 d1 d2 h1 h2 i1 i2 s1 s2 rest hall hnb
    rw [main fuel y1 y2 y3 y4 m1 m2 d1 d2 h1 h2 i1 i2 s1 s2 rest line hall]
    rw [if_neg hnb]

theorem C6_witness :
    (isDigitCh '2' = true)
    ∧ (pv 1 .value ⟨['2', '0', '1', '4', '-', '0', '1', '-', '0', '2', 'T', '0', '3', ':',
        '0', '4', ':', '0', '5', 'Z'], 1⟩ []
      = some (.Datetime 2014 1 2 3 4 5, ⟨[], 1⟩)) :=
  ⟨by decide,
    (C6_datetime_iff.1 0 '2'
      ['0', '1', '4', '-', '0', '1', '-', '0', '2', 'T', '0', '3', ':', '0', '4', ':',
        '0', '5', 'Z'] 1 2014 1 2 3 4 5 ⟨[], 1⟩ (by decide)).mpr ⟨[], rfl, rfl⟩⟩

/-! ## Reachability of declared pairs (C1) -/

/-- Map `m'` preserves every lookup in `m` that ends at a non-container
value — the shape of every value the parse loop ever hands to `pair`. -/
def preserves (m m' : TMap) : Prop :=
  ∀ (addr : List PathElement) (w : Value), isTableLike w = false →
    (Value.Table m).lookup_path_elts addr = some w →
    (Value.Table m').lookup_path_elts addr = some w

/-- A successful `resolve` walk is a `lookup_path_elts` walk: the resolved
address reaches the owning table. -/
theorem resolve_lookup (path : List (List Char)) :
    ∀ (ht t : TMap) (addr : List PathElement),
      resolve ht path = some (addr, t) →
      (Value.Table ht).lookup_path_elts addr = some (.Table t) := by
  induction path with
  | nil =>
    intro ht t addr h
    simp only [resolve, Option.some.injEq, Prod.mk.injEq] at h
    obtain ⟨haddr, hteq⟩ := h
    subst haddr; subst hteq
    rfl
  | cons p ps ih =>
    intro ht t addr h
    cases hfind : mfind ht p with
    | none => simp [resolve, hfind] at h
    | some v =>
      cases v with
      | Table t0 =>
        simp only [resolve, hfind, Option.map_eq_some'] at h
        obtain ⟨⟨a', t''⟩, h0, heq⟩ := h
        simp only [Prod.mk.injEq] at heq
        obtain ⟨haddr, hteq⟩ := heq
        subst hteq; subst haddr
        simp only [Value.lookup_path_elts, Value.lookup_key, hfind]
        exact ih t0 t'' a' h0
      | TableArray ta =>
        cases hlast : ta.getLast? with
        | none => simp [resolve, hfind, hlast] at h
        | some lv =>
          cases lv with
          | Table hmap =>
            simp only [resolve, hfind, hlast, Option.map_eq_some'] at h
            obtain ⟨⟨a', t''⟩, h0, heq⟩ := h
            simp only [Prod.mk.injEq] at heq
            obtain ⟨haddr, hteq⟩ := heq
            subst hteq; subst haddr
            rw [List.getLast?_eq_getElem?] at hlast
            simp only [Value.lookup_path_elts, Value.lookup_key, hfind,
              Value.lookup_idx, List.get?_eq_getElem?, hlast, Option.some_bind]
            exact ih hmap t'' a' h0
          | NoValue => simp [resolve, hfind, hlast] at h
          | Boolean b => simp [resolve, hfind, hlast] at h
          | Unsigned n => simp [resolve, hfind, hlast] at h
          | Signed n => simp [resolve, hfind, hlast] at h
          | Float q => simp [resolve, hfind, hlast] at h
          | String s => simp [resolve, hfind, hlast] at h
          | Datetime y mo d hh mi se => simp [resolve, hfind, hlast] at h
          | Array l => simp [resolve, hfind, hlast] at h
          | TableArray l => simp [resolve, hfind, hlast] at h
      | NoValue => simp [resolve, hfind] at h
      | Boolean b => simp [resolve, hfind] at h
      | Unsigned n => simp [resolve, hfind] at h
      | Signed n => simp [resolve, hfind] at h
      | Float q => simp [resolve, hfind] at h
      | String s => simp [resolve, hfind] at h
      | Datetime y mo d hh mi se => simp [resolve, hfind] at h
      | Array l => simp [resolve, hfind] at h

/-- `insert_value` never disturbs an existing lookup that ends at a
non-container value: it only appends one fresh binding at the leaf and
rebuilds the spine of `Table`s / last `TableArray` elements above it. -/
theorem insert_value_preserves (path : List (List Char)) :
    ∀ (ht ht' : TMap) (key : List Char) (val : Value),
      insert_value path key ht val = some ht' → preserves ht ht' := by
  induction path with
  | nil =>
    intro ht ht' key val h addr w hw hlook
    cases hfind : mfind ht key with
    | some x => simp [insert_value, hfind] at h
    | none =>
      simp only [insert_value, hfind, Option.some.injEq] at h
      subst h
      cases addr with
      | nil =>
        simp only [Value.lookup_path_elts, Option.some.injEq] at hlook
        subst hlook
        simp [isTableLike] at hw
      | cons x rest =>
        cases x with
        | Key k =>
          simp only [Value.lookup_path_elts, Value.lookup_key] at hlook ⊢
          obtain ⟨y, hy, hrest⟩ := Option.bind_eq_some.mp hlook
          rw [mfind_append_left ht [(key, val)] k y hy]
          exact hrest
        | Idx i =>
          simp [Value.lookup_path_elts, Value.lookup_idx] at hlook
  | cons p ps ih =>
    intro ht ht' key val h addr w hw hlook
    cases hfind : mfind ht p with
    | none => simp [insert_value, hfind] at h
    | some v =>
      cases v with
      | Table t0 =>
        simp only [insert_value, hfind, Option.map_eq_some'] at h
        obtain ⟨t1, hins, hht'⟩ := h
        subst hht'
        cases addr with
        | nil =>
          simp only [Value.lookup_path_elts, Option.some.injEq] at hlook
          subst hlook
          simp [isTableLike] at hw
        | cons x rest =>
          cases x with
          | Key k =>
            simp only [Value.lookup_path_elts, Value.lookup_key] at hlook ⊢
            obtain ⟨y, hy, hrest⟩ := Option.bind_eq_some.mp hlook
            by_cases hk : p = k
            · subst hk
              rw [hfind] at hy
              injection hy with hy2
              subst hy2
              rw [mfind_minsert_self]
              exact ih t0 t1 key val hins rest w hw hrest
            · rw [mfind_minsert_other ht p k (.Table t1) hk, hy]
              exact hrest
          | Idx i =>
            simp [Value.lookup_path_elts, Value.lookup_idx] at hlook
      | TableArray ta =>
        cases hlast : ta.getLast? with
        | none => simp [insert_value, hfind, hlast] at h
        | some lv =>
          cases lv with
          | Table hmap =>
            have hne : ta ≠ [] := by
              intro hc; subst hc; simp [List.getLast?] at hlast
            have hpos : 0 < ta.length := List.length_pos.mpr hne
            simp only [insert_value, hfind, hlast, Option.map_eq_some'] at h
            obtain ⟨h1, hins, hht'⟩ := h
            subst hht'
            cases addr with
            | nil =>
              simp only [Value.lookup_path_elts, Option.some.injEq] at hlook
              subst hlook
              simp [isTableLike] at hw
            | cons x rest =>
              cases x with
              | Key k =>
                simp only [Value.lookup_path_elts, Value.lookup_key] at hlook ⊢
                obtain ⟨y, hy, hrest⟩ := Option.bind_eq_some.mp hlook
                by_cases hk : p = k
                · subst hk
                  rw [hfind] at hy
                  injection hy with hy2
                  subst hy2
                  rw [mfind_minsert_self]
                  cases rest with
                  | nil =>
                    simp only [Value.lookup_path_elts, Option.some.injEq] at hrest
                    subst hrest
                    simp [isTableLike] at hw
                  | cons x2 r2 =>
                    cases x2 with
                    | Key k2 =>
                      simp [Value.lookup_path_elts, Value.lookup_key] at hrest
                    | Idx i =>
                      simp only [Value.lookup_path_elts, Value.lookup_idx,
                        List.get?_eq_getElem?] at hrest
                      obtain ⟨y2, hy2, hr2⟩ := Option.bind_eq_some.mp hrest
                      simp only [Option.some_bind, Value.lookup_path_elts,
                        Value.lookup_idx, List.get?_eq_getElem?]
                      by_cases hi : i = ta.length - 1
                      · subst hi
                        rw [List.getElem?_set_eq_of_lt (Value.Table h1)
                          (show ta.length - 1 < ta.length by omega)]
                        rw [List.getLast?_eq_getElem?] at hlast
                        rw [hlast] at hy2
                        injection hy2 with hy3
                        subst hy3
                        exact ih hmap h1 key val hins r2 w hw hr2
                      · rw [List.getElem?_set_ne (Ne.symm hi), hy2]
                        exact hr2
                · rw [mfind_minsert_other ht p k
                    (.TableArray (ta.set (ta.length - 1) (.Table h1))) hk, hy]
                  exact hrest
              | Idx i =>
                simp [Value.lookup_path_elts, Value.lookup_idx] at hlook
          | NoValue => simp [insert_value, hfind, hlast] at h
          | Boolean b => simp [insert_value, hfind, hlast] at h
          | Unsigned n => simp [insert_value, hfind, hlast] at h
          | Signed n => simp [insert_value, hfind, hlast] at h
          | Float q => simp [insert_value, hfind, hlast] at h
          | String s => simp [insert_value, hfind, hlast] at h
          | Datetime y mo d hh mi se => simp [insert_value, hfind, hlast] at h
          | Array l => simp [insert_value, hfind, hlast] at h
          | TableArray l => simp [insert_value, hfind, hlast] at h
      | NoValue => simp [insert_value, hfind] at h
      | Boolean b => simp [insert_value, hfind] at h
      | Unsigned n => simp [insert_value, hfind] at h
      | Signed n => simp [insert_value, hfind] at h
      | Float q => simp [insert_value, hfind] at h
      | String s => simp [insert_value, hfind] at h
      | Datetime y mo d hh mi se => simp [insert_value, hfind] at h
      | Array l => simp [insert_value, hfind] at h

/-- `recursive_create_tree` never disturbs an existing lookup that ends at
a non-container value: it only creates fresh tables, re-opens existing
ones, appends to `TableArray`s and rebuilds the spine above. -/
theorem rct_preserves (path : List (List Char)) :
    ∀ (ht ht' : TMap) (ia : Bool),
      recursive_create_tree path ht ia = some ht' → preserves ht ht' := by
  induction path with
  | nil =>
    intro ht ht' ia h
    simp [recursive_create_tree] at h
  | cons p ps ih =>
    intro ht ht' ia h addr w hw hlook
    by_cases hp : p = []
    · simp [recursive_create_tree, hp] at h
    cases hfind : mfind ht p with
    | none =>
      cases ps with
      | nil =>
        simp only [recursive_create_tree, if_neg hp, hfind, Option.some.injEq] at h
        subst h
        cases addr with
        | nil =>
          simp only [Value.lookup_path_elts, Option.some.injEq] at hlook
          subst hlook
          simp [isTableLike] at hw
        | cons x rest =>
          cases x with
          | Key k =>
            simp only [Value.lookup_path_elts, Value.lookup_key] at hlook ⊢
            obtain ⟨y, hy, hrest⟩ := Option.bind_eq_some.mp hlook
            by_cases hk : p = k
            · subst hk; rw [hfind] at hy; cases hy
            · rw [mfind_minsert_other ht p k _ hk, hy]
              exact hrest
          | Idx i =>
            simp [Value.lookup_path_elts, Value.lookup_idx] at hlook
      | cons q qs =>
        simp only [recursive_create_tree, if_neg hp, hfind, Option.map_eq_some'] at h
        obtain ⟨sub, hsub, hht'⟩ := h
        subst hht'
        cases addr with
        | nil =>
          simp only [Value.lookup_path_elts, Option.some.injEq] at hlook
          subst hlook
          simp [isTableLike] at hw
        | cons x rest =>
          cases x with
          | Key k =>
            simp only [Value.lookup_path_elts, Value.lookup_key] at hlook ⊢
            obtain ⟨y, hy, hrest⟩ := Option.bind_eq_some.mp hlook
            by_cases hk : p = k
            · subst hk; rw [hfind] at hy; cases hy
            · rw [mfind_minsert_other ht p k _ hk, hy]
              exact hrest
          | Idx i =>
            simp [Value.lookup_path_elts, Value.lookup_idx] at hlook
    | some v =>
      cases v with
      | Table t0 =>
        cases ps with
        | nil =>
          cases ia with
          | true => simp [recursive_create_tree, if_neg hp, hfind] at h
          | false =>
            simp only [recursive_create_tree, if_neg hp, hfind, Bool.false_eq_true,
              if_false, Option.some.injEq] at h
            subst h
            exact hlook
        | cons q qs =>
          simp only [recursive_create_tree, if_neg hp, hfind, Option.map_eq_some'] at h
          obtain ⟨t1, hrec, hht'⟩ := h
          subst hht'
          cases addr with
          | nil =>
            simp only [Value.lookup_path_elts, Option.some.injEq] at hlook
            subst hlook
            simp [isTableLike] at hw
          | cons x rest =>
            cases x with
            | Key k =>
              simp only [Value.lookup_path_elts, Value.lookup_key] at hlook ⊢
              obtain ⟨y, hy, hrest⟩ := Option.bind_eq_some.mp hlook
              by_cases hk : p = k
              · subst hk
                rw [hfind] at hy
                injection hy with hy2
                subst hy2
                rw [mfind_minsert_self]
                exact ih t0 t1 ia hrec rest w hw hrest
              · rw [mfind_minsert_other ht p k (.Table t1) hk, hy]
                exact hrest
            | Idx i =>
              simp [Value.lookup_path_elts, Value.lookup_idx] at hlook
      | TableArray ta =>
        cases ps with
        | nil =>
          cases ia with
          | false => simp [recursive_create_tree, if_neg hp, hfind] at h
          | true =>
            simp only [recursive_create_tree, if_neg hp, hfind, if_true,
              Option.some.injEq] at h
            subst h
            cases addr with
            | nil =>
              simp only [Value.lookup_path_elts, Option.some.injEq] at hlook
              subst hlook
              simp [isTableLike] at hw
            | cons x rest =>
              cases x with
              | Key k =>
                simp only [Value.lookup_path_elts, Value.lookup_key] at hlook ⊢
                obtain ⟨y, hy, hrest⟩ := Option.bind_eq_some.mp hlook
                by_cases hk : p = k
                · subst hk
                  rw [hfind] at hy
                  injection hy with hy2
                  subst hy2
                  rw [mfind_minsert_self]
                  cases rest with
                  | nil =>
                    simp only [Value.lookup_path_elts, Option.some.injEq] at hrest
                    subst hrest
                    simp [isTableLike] at hw
                  | cons x2 r2 =>
                    cases x2 with
                    | Key k2 =>
                      simp [Value.lookup_path_elts, Value.lookup_key] at hrest
                    | Idx i =>
                      simp only [Value.lookup_path_elts, Value.lookup_idx,
                        List.get?_eq_getElem?] at hrest
                      obtain ⟨y2, hy2, hr2⟩ := Option.bind_eq_some.mp hrest
                      have hib : i < ta.length := by
                        by_contra hc
                        rw [List.getElem?_eq_none (by omega)] at hy2
                        cases hy2
                      simp only [Option.some_bind, Value.lookup_path_elts,
                        Value.lookup_idx, List.get?_eq_getElem?]
                      rw [List.getElem?_append, if_pos hib, hy2]
                      exact hr2
                · rw [mfind_minsert_other ht p k _ hk, hy]
                  exact hrest
              | Idx i =>
                simp [Value.lookup_path_elts, Value.lookup_idx] at hlook
        | cons q qs =>
          cases hlast : ta.getLast? with
          | none => simp [recursive_create_tree, if_neg hp, hfind, hlast] at h
          | some lv =>
            cases lv with
            | Table hmap =>
              have hne : ta ≠ [] := by
                intro hc; subst hc; simp [List.getLast?] at hlast
              have hpos : 0 < ta.length := List.length_pos.mpr hne
              simp only [recursive_create_tree, if_neg hp, hfind, hlast,
                Option.map_eq_some'] at h
              obtain ⟨h1, hrec, hht'⟩ := h
              subst hht'
              cases addr with
              | nil =>
                simp only [Value.lookup_path_elts, Option.some.injEq] at hlook
                subst hlook
                simp [isTableLike] at hw
              | cons x rest =>
                cases x with
                | Key k =>
                  simp only [Value.lookup_path_elts, Value.lookup_key] at hlook ⊢
                  obtain ⟨y, hy, hrest⟩ := Option.bind_eq_some.mp hlook
                  by_cases hk : p = k
                  · subst hk
                    rw [hfind] at hy
                    injection hy with hy2
                    subst hy2
                    rw [mfind_minsert_self]
                    cases rest with
                    | nil =>
                      simp only [Value.lookup_path_elts, Option.some.injEq] at hrest
                      subst hrest
                      simp [isTableLike] at hw
                    | cons x2 r2 =>
                      cases x2 with
                      | Key k2 =>
                        simp [Value.lookup_path_elts, Value.lookup_key] at hrest
                      | Idx i =>
                        simp only [Value.lookup_path_elts, Value.lookup_idx,
                          List.get?_eq_getElem?] at hrest
                        obtain ⟨y2, hy2, hr2⟩ := Option.bind_eq_some.mp hrest
                        simp only [Option.some_bind, Value.lookup_path_elts,
                          Value.lookup_idx, List.get?_eq_getElem?]
                        by_cases hi : i = ta.length - 1
                        · subst hi
                          rw [List.getElem?_set_eq_of_lt (Value.Table h1)
                            (show ta.length - 1 < ta.length by omega)]
                          rw [List.getLast?_eq_getElem?] at hlast
                          rw [hlast] at hy2
                          injection hy2 with hy3
                          subst hy3
                          exact ih hmap h1 ia hrec r2 w hw hr2
                        · rw [List.getElem?_set_ne (Ne.symm hi), hy2]
                          exact hr2
                  · rw [mfind_minsert_other ht p k
                      (.TableArray (ta.set (ta.length - 1) (.Table h1))) hk, hy]
                    exact hrest
                | Idx i =>
                  simp [Value.lookup_path_elts, Value.lookup_idx] at hlook
            | NoValue => simp [recursive_create_tree, if_neg hp, hfind, hlast] at h
            | Boolean b => simp [recursive_create_tree, if_neg hp, hfind, hlast] at h
            | Unsigned n => simp [recursive_create_tree, if_neg hp, hfind, hlast] at h
            | Signed n => simp [recursive_create_tree, if_neg hp, hfind, hlast] at h
            | Float q2 => simp [recursive_create_tree, if_neg hp, hfind, hlast] at h
            | String s => simp [recursive_create_tree, if_neg hp, hfind, hlast] at h
            | Datetime y mo d hh mi se =>
              simp [recursive_create_tree, if_neg hp, hfind, hlast] at h
            | Array l => simp [recursive_create_tree, if_neg hp, hfind, hlast] at h
            | TableArray l => simp [recursive_create_tree, if_neg hp, hfind, hlast] at h
      | NoValue => cases ps <;> simp [recursive_create_tree, if_neg hp, hfind] at h
      | Boolean b => cases ps <;> simp [recursive_create_tree, if_neg hp, hfind] at h
      | Unsigned n => cases ps <;> simp [recursive_create_tree, if_neg hp, hfind] at h
      | Signed n => cases ps <;> simp [recursive_create_tree, if_neg hp, hfind] at h
      | Float q => cases ps <;> simp [recursive_create_tree, if_neg hp, hfind] at h
      | String s => cases ps <;> simp [recursive_create_tree, if_neg hp, hfind] at h
      | Datetime y mo d hh mi se =>
        cases ps <;> simp [recursive_create_tree, if_neg hp, hfind] at h
      | Array l => cases ps <;> simp [recursive_create_tree, if_neg hp, hfind] at h

/-- A successful insertion pins down a successful `resolve` of the open
path on the pre-insertion tree, with the key fresh in the owning table. -/
theorem insert_value_some_resolve (path : List (List Char)) :
    ∀ (ht ht' : TMap) (key : List Char) (val : Value),
      insert_value path key ht val = some ht' →
      ∃ addr t, resolve ht path = some (addr, t) ∧ mfind t key = none := by
  induction path with
  | nil =>
    intro ht ht' key val h
    refine ⟨[], ht, rfl, ?_⟩
    cases hfind : mfind ht key with
    | none => rfl
    | some x => simp [insert_value, hfind] at h
  | cons p ps ih =>
    intro ht ht' key val h
    cases hfind : mfind ht p with
    | none => simp [insert_value, hfind] at h
    | some v =>
      cases v with
      | Table t0 =>
        simp only [insert_value, hfind, Option.map_eq_some'] at h
        obtain ⟨t1, hins, _⟩ := h
        obtain ⟨addr, t, hres, hkey⟩ := ih t0 t1 key val hins
        exact ⟨.Key p :: addr, t,
          by simp only [resolve, hfind, hres, Option.map_some'], hkey⟩
      | TableArray ta =>
        cases hlast : ta.getLast? with
        | none => simp [insert_value, hfind, hlast] at h
        | some lv =>
          cases lv with
          | Table hmap =>
            simp only [insert_value, hfind, hlast, Option.map_eq_some'] at h
            obtain ⟨h1, hins, _⟩ := h
            obtain ⟨addr, t, hres, hkey⟩ := ih hmap h1 key val hins
            exact ⟨.Key p :: .Idx (ta.length - 1) :: addr, t,
              by simp only [resolve, hfind, hlast, hres, Option.map_some'], hkey⟩
          | NoValue => simp [insert_value, hfind, hlast] at h
          | Boolean b => simp [insert_value, hfind, hlast] at h
          | Unsigned n => simp [insert_value, hfind, hlast] at h
          | Signed n => simp [insert_value, hfind, hlast] at h
          | Float q => simp [insert_value, hfind, hlast] at h
          | String s => simp [insert_value, hfind, hlast] at h
          | Datetime y mo d hh mi se => simp [insert_value, hfind, hlast] at h
          | Array l => simp [insert_value, hfind, hlast] at h
          | TableArray l => simp [insert_value, hfind, hlast] at h
      | NoValue => simp [insert_value, hfind] at h
      | Boolean b => simp [insert_value, hfind] at h
      | Unsigned n => simp [insert_value, hfind] at h
      | Signed n => simp [insert_value, hfind] at h
      | Float q => simp [insert_value, hfind] at h
      | String s => simp [insert_value, hfind] at h
      | Datetime y mo d hh mi se => simp [insert_value, hfind] at h
      | Array l => simp [insert_value, hfind] at h

theorem parse_float_rest_not_tableLike (n : Nat) (mul : ℚ) (st : PState) :
    isTableLike (parse_float_rest n mul st).1 = false := by
  rw [parse_float_rest]
  split
  · rfl
  · split
    · rfl
    · rfl

theorem parse_datetime_not_tableLike (n : Nat) (st : PState) :
    isTableLike (parse_datetime n st).1 = false := by
  rw [parse_datetime]
  repeat' split
  all_goals rfl

theorem parse_number_neg_not_tableLike (st : PState) :
    isTableLike (parse_number_neg st).1 = false := by
  rw [parse_number_neg]
  split
  · split
    · exact parse_float_rest_not_tableLike _ _ _
    · rfl
  · rfl

theorem parse_number_not_tableLike (st : PState) :
    isTableLike (parse_number st).1 = false := by
  rw [parse_number]
  split
  · split
    · exact parse_float_rest_not_tableLike _ _ _
    · split
      · rfl
      · exact parse_datetime_not_tableLike _ _
    · rfl
  · rfl

/-- The value parser never produces a `Table` or `TableArray`: every value
the driver hands to `pair` is a leaf from the lookup walk's viewpoint. -/
theorem pv_not_tableLike :
    ∀ (fuel : Nat) (mode : PMode) (st : PState) (arr : List Value)
      (v : Value) (st' : PState),
      pv fuel mode st arr = some (v, st') → isTableLike v = false := by
  intro fuel
  induction fuel with
  | zero =>
    intro mode st arr v st' h
    cases h
  | succ n ih =>
    intro mode st arr v st' h
    cases mode with
    | value =>
      simp only [pv] at h
      split at h
      · simp only [Option.some.injEq, Prod.mk.injEq] at h
        obtain ⟨hv, -⟩ := h
        subst hv; rfl
      · split at h
        · simp only [Option.some.injEq] at h
          have hv : isTableLike (v, st').1 = false := by
            rw [← h]; exact parse_number_neg_not_tableLike _
          exact hv
        · split at h
          · simp only [Option.some.injEq] at h
            have hv : isTableLike (v, st').1 = false := by
              rw [← h]; exact parse_number_not_tableLike _
            exact hv
          · split at h
            · split at h
              · simp only [Option.some.injEq, Prod.mk.injEq] at h
                obtain ⟨hv, -⟩ := h
                subst hv; rfl
              · simp only [Option.some.injEq, Prod.mk.injEq] at h
                obtain ⟨hv, -⟩ := h
                subst hv; rfl
            · split at h
              · split at h
                · simp only [Option.some.injEq, Prod.mk.injEq] at h
                  obtain ⟨hv, -⟩ := h
                  subst hv; rfl
                · simp only [Option.some.injEq, Prod.mk.injEq] at h
                  obtain ⟨hv, -⟩ := h
                  subst hv; rfl
              · split at h
                · exact ih _ _ _ _ _ h
                · split at h
                  · split at h
                    · simp only [Option.some.injEq, Prod.mk.injEq] at h
                      obtain ⟨hv, -⟩ := h
                      subst hv; rfl
                    · simp only [Option.some.injEq, Prod.mk.injEq] at h
                      obtain ⟨hv, -⟩ := h
                      subst hv; rfl
                  · simp only [Option.some.injEq, Prod.mk.injEq] at h
                    obtain ⟨hv, -⟩ := h
                    subst hv; rfl
    | arrLoop =>
      simp only [pv] at h
      split at h
      · cases h
      · split at h
        · simp only [Option.some.injEq, Prod.mk.injEq] at h
          obtain ⟨hv, -⟩ := h
          subst hv; rfl
        · simp only [Option.some.injEq, Prod.mk.injEq] at h
          obtain ⟨hv, -⟩ := h
          subst hv; rfl
      · split at h
        · split at h
          · exact ih _ _ _ _ _ h
          · split at h
            · simp only [Option.some.injEq, Prod.mk.injEq] at h
              obtain ⟨hv, -⟩ := h
              subst hv; rfl
            · simp only [Option.some.injEq, Prod.mk.injEq] at h
              obtain ⟨hv, -⟩ := h
              subst hv; rfl
        · simp only [Option.some.injEq, Prod.mk.injEq] at h
          obtain ⟨hv, -⟩ := h
          subst hv; rfl

/-- Every recorded pair event is reachable in the given root at its
recorded address extended by its key. -/
def traceOK (root : TMap) (tr : List TraceEntry) : Prop :=
  ∀ e ∈ tr, isTableLike e.val = false ∧
    (Value.Table root).lookup_path_elts (e.addr ++ [.Key e.key]) = some e.val

/-- The parse loop maintains reachability of every recorded pair event:
`pair` makes its own event reachable and both `pair` and `open_section`
preserve the reachability of all earlier ones. -/
theorem parse_preserves_trace :
    ∀ (fuel : Nat) (st : PState) (b b' : ValueBuilder),
      parse fuel st b = some (true, b') →
      traceOK b.root b.trace → traceOK b'.root b'.trace := by
  intro fuel
  induction fuel with
  | zero =>
    intro st b b' h
    cases h
  | succ n ih =>
    intro st b b' h hOK
    simp only [parse] at h
    split at h
    · simp only [Option.some.injEq, Prod.mk.injEq] at h
      obtain ⟨-, hb⟩ := h
      subst hb
      exact hOK
    · -- section-header branch
      split at h
      · simp only [Option.some.injEq, Prod.mk.injEq] at h
        obtain ⟨hfalse, -⟩ := h
        cases hfalse
      · split at h
        · simp only [Option.some.injEq, Prod.mk.injEq] at h
          obtain ⟨hfalse, -⟩ := h
          cases hfalse
        · next b2 heq =>
          refine ih _ _ _ h ?_
          simp only [ValueBuilder.open_section, Option.map_eq_some'] at heq
          obtain ⟨r, hrct, hb2⟩ := heq
          subst hb2
          intro e he
          obtain ⟨hleaf, hlook⟩ := hOK e he
          exact ⟨hleaf, rct_preserves _ _ _ _ hrct _ _ hleaf hlook⟩
    · -- key/value branch
      split at h
      · simp only [Option.some.injEq, Prod.mk.injEq] at h
        obtain ⟨hfalse, -⟩ := h
        cases hfalse
      · next ident st3 heq1 =>
        split at h
        · cases h
        · simp only [Option.some.injEq, Prod.mk.injEq] at h
          obtain ⟨hfalse, -⟩ := h
          cases hfalse
        · next val st4 hne hpv =>
          split at h
          · simp only [Option.some.injEq, Prod.mk.injEq] at h
            obtain ⟨hfalse, -⟩ := h
            cases hfalse
          · next b2 heq2 =>
            refine ih _ _ _ h ?_
            simp only [ValueBuilder.pair, Option.map_eq_some'] at heq2
            obtain ⟨r, hins, hb2⟩ := heq2
            subst hb2
            intro e he
            rw [List.mem_append] at he
            cases he with
            | inl hein =>
              obtain ⟨hleaf, hlook⟩ := hOK e hein
              exact ⟨hleaf, insert_value_preserves _ _ _ _ _ hins _ _ hleaf hlook⟩
            | inr hein =>
              rw [List.mem_singleton] at hein
              subst hein
              have hleaf : isTableLike val = false := pv_not_tableLike _ _ _ _ _ _ hpv
              refine ⟨hleaf, ?_⟩
              obtain ⟨addr, t, hres, hkey⟩ := insert_value_some_resolve _ _ _ _ _ hins
              show (Value.Table r).lookup_path_elts
                ((((resolve b.root b.current_path).map Prod.fst).getD [])
                  ++ [.Key ident]) = some val
              rw [hres]
              simp only [Option.map_some', Option.getD_some]
              obtain ⟨ht2, hins2, hres2⟩ :=
                (insert_value_resolve b.current_path b.root t addr ident val hres).2 hkey
              rw [hins] at hins2
              injection hins2 with hr
              subst hr
              rw [lookup_path_elts_append]
              rw [resolve_lookup _ _ _ _ hres2]
              simp only [Option.some_bind, Value.lookup_path_elts, Value.lookup_key,
                mfind_append_self t ident val hkey]

/-- Decimal rendering of a `Nat`, fueled to stay structural. -/
def natDigitsAux : Nat → Nat → List Char
  | 0, _ => []
  | fuel + 1, n =>
    if n < 10 then [Char.ofNat (48 + n)]
    else natDigitsAux fuel (n / 10) ++ [Char.ofNat (48 + n % 10)]

/-- Decimal rendering of a `Nat` (the inverse of the index parse inside
`Value::lookup`). -/
def natDigits (n : Nat) : List Char := natDigitsAux (n + 1) n

theorem natDigitsAux_spec :
    ∀ (fuel n : Nat), n ≤ fuel →
      (natDigitsAux (fuel + 1) n ≠ [] ∧
       (natDigitsAux (fuel + 1) n).all isDigitCh = true ∧
       '.' ∉ natDigitsAux (fuel + 1) n ∧
       ∀ a, (natDigitsAux (fuel + 1) n).foldl
          (fun acc c => acc * 10 + (c.toNat - '0'.toNat)) a
        = a * 10 ^ (natDigitsAux (fuel + 1) n).length + n) := by
  intro fuel
  induction fuel with
  | zero =>
    intro n hn
    have hn0 : n = 0 := Nat.le_zero.mp hn
    subst hn0
    have hred : natDigitsAux 1 0 = ['0'] := by decide
    rw [hred]
    refine ⟨by decide, by decide, by decide, ?_⟩
    intro a
    have hz : ('0'.toNat - '0'.toNat) = 0 := by decide
    simp only [List.foldl_cons, List.foldl_nil, List.length_singleton, pow_one, hz]
  | succ f ihf =>
    intro n hn
    by_cases h10 : n < 10
    · have hc : (Char.ofNat (48 + n)).toNat = 48 + n := by
        interval_cases n <;> decide
      have hd : isDigitCh (Char.ofNat (48 + n)) = true := by
        interval_cases n <;> decide
      have hdot : Char.ofNat (48 + n) ≠ '.' := by
        interval_cases n <;> decide
      refine ⟨by simp [natDigitsAux, h10], by simp [natDigitsAux, h10, hd], ?_, ?_⟩
      · simp only [natDigitsAux, if_pos h10, List.mem_singleton]
        exact fun hc2 => hdot hc2.symm
      · intro a
        simp only [natDigitsAux, if_pos h10, List.foldl_cons, List.foldl_nil,
          List.length_singleton, pow_one, hc]
        have h0 : '0'.toNat = 48 := by decide
        rw [h0]
        omega
    · have hdiv : n / 10 ≤ f := by omega
      obtain ⟨ihne, ihdig, ihdot, ihval⟩ := ihf (n / 10) hdiv
      have hm : n % 10 < 10 := Nat.mod_lt _ (by omega)
      have hc : (Char.ofNat (48 + n % 10)).toNat = 48 + n % 10 := by
        set m := n % 10 with hmdef
        interval_cases m <;> decide
      have hd : isDigitCh (Char.ofNat (48 + n % 10)) = true := by
        set m := n % 10 with hmdef
        interval_cases m <;> decide
      have hdot : Char.ofNat (48 + n % 10) ≠ '.' := by
        set m := n % 10 with hmdef
        interval_cases m <;> decide
      rw [show natDigitsAux (f + 1 + 1) n
          = natDigitsAux (f + 1) (n / 10) ++ [Char.ofNat (48 + n % 10)] from by
        rw [natDigitsAux]; rw [if_neg h10]]
      refine ⟨by simp, by simp [List.all_append, ihdig, hd], ?_, ?_⟩
      · intro hmem
        rw [List.mem_append] at hmem
        cases hmem with
        | inl hin => exact ihdot hin
        | inr hin =>
          rw [List.mem_singleton] at hin
          exact hdot hin.symm
      · intro a
        rw [List.foldl_append]
        simp only [List.foldl_cons, List.foldl_nil, List.length_append,
          List.length_singleton]
        rw [ihval a]
        have h0 : '0'.toNat = 48 := by decide
        rw [h0, hc, pow_succ, ← mul_assoc, Nat.add_mul]
        omega

/-- `FromStr::from_str::<uint>` inverts the decimal rendering of any value
that fits in `uint`. -/
theorem from_str_uint_natDigits (n : Nat) (h : n < 2 ^ 64) :
    from_str_uint (natDigits n) = some n := by
  obtain ⟨hne, hdig, -, hval⟩ := natDigitsAux_spec n n le_rfl
  have hplus : from_str_uint (natDigits n) = from_str_uint_digits (natDigits n) := by
    cases hd : natDigits n with
    | nil => rfl
    | cons c rest =>
      have hc : isDigitCh c = true := by
        have hdig2 := hdig
        rw [show natDigitsAux (n + 1) n = natDigits n from rfl, hd] at hdig2
        simp only [List.all_cons, Bool.and_eq_true] at hdig2
        exact hdig2.1
      have hcp : c ≠ '+' := by
        intro hcc
        subst hcc
        simp [isDigitCh] at hc
      unfold from_str_uint
      split
      · next r heq =>
        injection heq with h1 h2
        exact absurd h1 hcp
      · rfl
  rw [hplus, from_str_uint_digits, if_pos ⟨hne, hdig⟩,
    show natDigits n = natDigitsAux (n + 1) n from rfl, hval 0]
  simp only [zero_mul, zero_add]
  rw [if_pos h]

theorem natDigits_no_dot (n : Nat) : '.' ∉ natDigits n :=
  (natDigitsAux_spec n n le_rfl).2.2.1

/-- The query-string spelling of one resolved path element. -/
def elemStr : PathElement → List Char
  | .Key s => s
  | .Idx i => natDigits i

/-- The dotted query string of a resolved address (`.`-intercalation). -/
def addrString : List PathElement → List Char
  | [] => []
  | [e] => elemStr e
  | e :: f :: es => elemStr e ++ '.' :: addrString (f :: es)

/-- A path element whose spelling survives the `Value::lookup` split and
re-classification: a key must be dot-free and must not itself parse as a
non-negative integer, and an index must fit in `uint` so that its decimal
rendering parses back without overflow. -/
def validElem : PathElement → Prop
  | .Key s => '.' ∉ s ∧ from_str_uint s = none
  | .Idx i => i < 2 ^ 64

theorem elemStr_no_dot (e : PathElement) (h : validElem e) : '.' ∉ elemStr e := by
  cases e with
  | Key s => exact h.1
  | Idx i => exact natDigits_no_dot i

theorem toPathElement_elemStr (e : PathElement) (h : validElem e) :
    toPathElement (elemStr e) = e := by
  cases e with
  | Key s =>
    simp only [elemStr, toPathElement, h.2]
  | Idx i =>
    simp only [elemStr, toPathElement, from_str_uint_natDigits i h]

/-- Splitting after a dot-free first segment. -/
theorem splitDot_append_seg (s rest : List Char) (h : '.' ∉ s) :
    splitDot (s ++ '.' :: rest) = s :: splitDot rest := by
  induction s with
  | nil => simp [splitDot]
  | cons c cs ih =>
    have hc : c ≠ '.' := by
      intro hc2; exact h (by simp [hc2])
    have hcs : '.' ∉ cs := by
      intro hin; exact h (by simp [hin])
    simp only [List.cons_append, splitDot, List.append_eq, if_neg hc, ih hcs]

/-- A dot-free string splits to itself. -/
theorem splitDot_nodot (s : List Char) (h : '.' ∉ s) : splitDot s = [s] := by
  induction s with
  | nil => rfl
  | cons c cs ih =>
    have hc : c ≠ '.' := by
      intro hc2; exact h (by simp [hc2])
    have hcs : '.' ∉ cs := by
      intro hin; exact h (by simp [hin])
    simp only [splitDot, if_neg hc, ih hcs]

/-- Round trip: the dotted spelling of a nonempty valid address splits and
re-classifies to exactly that address. -/
theorem splitDot_addrString :
    ∀ (l : List PathElement), l ≠ [] → (∀ y ∈ l, validElem y) →
      (splitDot (addrString l)).map toPathElement = l := by
  intro l
  induction l with
  | nil => intro h; exact absurd rfl h
  | cons x xs ih =>
    intro _ hv
    cases xs with
    | nil =>
      rw [show addrString [x] = elemStr x from rfl]
      rw [splitDot_nodot (elemStr x) (elemStr_no_dot x (hv x (by simp)))]
      simp only [List.map_cons, List.map_nil]
      rw [toPathElement_elemStr x (hv x (by simp))]
    | cons y ys =>
      rw [show addrString (x :: y :: ys) = elemStr x ++ '.' :: addrString (y :: ys)
        from rfl]
      rw [splitDot_append_seg _ _ (elemStr_no_dot x (hv x (by simp)))]
      simp only [List.map_cons]
      rw [toPathElement_elemStr x (hv x (by simp)),
        ih (by simp) (fun z hz => hv z (List.mem_cons_of_mem x hz))]

/-- C1 counterexample.  The driver's key tokenizer stops only at whitespace
or `=`, so `a.b=1` parses successfully with the single literal key `a.b`
in the root table (section path empty, so the pair's dotted path is just
the key); but `Value::lookup` splits its query on `.`, so looking up that
exact dotted path returns not-found instead of the declared value. -/
theorem C1_counterexample :
    (parse_from_buffer 8 ['a', '.', 'b', '=', '1']
      = some (.Table [(['a', '.', 'b'], .Unsigned 1)],
          [⟨[], [], ['a', '.', 'b'], .Unsigned 1⟩]))
    ∧ ((Value.Table [(['a', '.', 'b'], .Unsigned 1)]).lookup ['a', '.', 'b'] = none) :=
  ⟨rfl, rfl⟩

/-- C1 (amended).  For every input on which the parse succeeds, every
declared key/value pair is reachable via `Value::lookup` at the dotted
spelling of its resolved address — the section path open at declaration
time with each descent into a `TableArray` made explicit as the index of
its then-last element, followed by the pair's key — provided each key
segment of that address (including the pair's key itself) contains no `.`
and does not itself parse as a non-negative integer; and the lookup
returns the declared value. -/
theorem C1_lookup_reachability :
    ∀ (fuel : Nat) (s : List Char) (root : TMap) (tr : List TraceEntry),
      parse_from_buffer fuel s = some (.Table root, tr) →
      ∀ e ∈ tr, (∀ x ∈ e.addr, validElem x) →
        ('.' ∉ e.key) → from_str_uint e.key = none →
        (Value.Table root).lookup (addrString (e.addr ++ [.Key e.key]))
          = some e.val := by
  intro fuel s root tr hparse e he hvalid hdot hkey
  have hb : ∃ b, parse fuel (pnew s) ValueBuilder.new = some (true, b)
      ∧ b.root = root ∧ b.trace = tr := by
    cases hp : parse fuel (pnew s) ValueBuilder.new with
    | none => rw [parse_from_buffer, hp] at hparse; cases hparse
    | some r =>
      cases r with
      | mk ok b =>
        cases ok with
        | true =>
          rw [parse_from_buffer, hp] at hparse
          simp only [Option.some.injEq, Prod.mk.injEq, Value.Table.injEq] at hparse
          exact ⟨b, rfl, hparse.1, hparse.2⟩
        | false =>
          rw [parse_from_buffer, hp] at hparse
          simp at hparse
  obtain ⟨b, hp, hroot, htr⟩ := hb
  have hOK : traceOK b.root b.trace :=
    parse_preserves_trace fuel (pnew s) ValueBuilder.new b hp
      (by intro e2 he2; cases he2)
  rw [hroot, htr] at hOK
  obtain ⟨-, hlook⟩ := hOK e he
  rw [Value.lookup]
  rw [splitDot_addrString (e.addr ++ [PathElement.Key e.key]) (by simp) ?hval]
  case hval =>
    intro y hy
    rw [List.mem_append] at hy
    cases hy with
    | inl hin => exact hvalid y hin
    | inr hin =>
      rw [List.mem_singleton] at hin
      subst hin
      exact ⟨hdot, hkey⟩
  exact hlook

theorem C1_witness :
    (parse_from_buffer 8 ['x', '=', '1']
      = some (.Table [(['x'], .Unsigned 1)], [⟨[], [], ['x'], .Unsigned 1⟩]))
    ∧ ((Value.Table [(['x'], .Unsigned 1)]).lookup ['x'] = some (.Unsigned 1)) := by
  refine ⟨rfl, ?_⟩
  exact C1_lookup_reachability 8 ['x', '=', '1'] [(['x'], .Unsigned 1)]
    [⟨[], [], ['x'], .Unsigned 1⟩] rfl ⟨[], [], ['x'], .Unsigned 1⟩ (List.Mem.head _)
    (by intro x hx; simp at hx) (by decide) (by decide)

end Toml
